import Mathlib

set_option linter.unusedVariables false

/-!
Shallow embedding of the jaba merge-queue bot (src/build_state.rs,
src/merge_request.rs, src/main.rs, src/project.rs), together with theorems
settling the specification claims about it.

Conventions of the embedding:
* Rust `u64` values are modelled as `Nat` (claims never exercise overflow;
  where a u64 parse bound matters, `2 ^ 64` appears explicitly).
* `chrono::DateTime<UTC>` is modelled as `Int` (a totally ordered instant).
* Rust `String` is modelled as Lean `String`; comparisons are performed on the
  character list, which for valid UTF-8 agrees with Rust's byte-wise
  lexicographic `Ord for str` (UTF-8 preserves codepoint order).
* serde_json serialization of `ApprovalInfo` / `TestInfo` (external library
  code) is modelled by an abstract payload type `δ` for the commit-status
  description together with an encoder/decoder pair; `serde_json::to_string`
  never fails on these types, so encoding is total.
* fallible operations return `Option` (`none` = `Err`).
-/

/-- Rust `Ordering` comparison on `Nat`, mirroring `u64::cmp`. -/
def cmpNat (a b : Nat) : Ordering :=
  if a < b then .lt else if a = b then .eq else .gt

/-- Rust `Ordering` comparison on `Int`, mirroring `DateTime::cmp`. -/
def cmpInt (a b : Int) : Ordering :=
  if a < b then .lt else if a = b then .eq else .gt

/-- Lexicographic comparison of character lists by codepoint, mirroring
`str::cmp` (byte-wise lexicographic order, which for valid UTF-8 equals
codepoint-lexicographic order). -/
def listCharCmp : List Char → List Char → Ordering
  | [], [] => .eq
  | [], _ :: _ => .lt
  | _ :: _, [] => .gt
  | a :: as, b :: bs =>
    if a.toNat < b.toNat then .lt
    else if b.toNat < a.toNat then .gt
    else listCharCmp as bs

/-- `String` comparison mirroring `String::cmp` in Rust. -/
def cmpStr (a b : String) : Ordering :=
  listCharCmp a.data b.data

/-- Strict lexicographic order on strings induced by `cmpStr`. -/
def strLt (a b : String) : Prop := cmpStr a b = .lt

instance (a b : String) : Decidable (strLt a b) := by
  unfold strLt; infer_instance

/-- gitlab `StatusState`: the five commit-status states.  The exhaustive
matches in build_state.rs witness that the enum has exactly these variants. -/
inductive StatusState where
  | Pending
  | Running
  | Success
  | Failed
  | Canceled
deriving DecidableEq, Repr

/-- gitlab `MergeStatus` (mergeability flag of a merge request). -/
inductive MergeStatus where
  | Unchecked
  | CanBeMerged
  | CannotBeMerged
deriving DecidableEq, Repr

/-- build_state.rs `ApprovalInfo`. -/
structure ApprovalInfo where
  priority : Nat
  time : Int
  username : String
deriving DecidableEq, Repr

/-- build_state.rs `impl Ord for ApprovalInfo` (lines 161-168):
priority ascending, then time reversed, then username reversed. -/
def ApprovalInfo.cmp (a b : ApprovalInfo) : Ordering :=
  (cmpNat a.priority b.priority).then
    (((cmpInt a.time b.time).swap).then ((cmpStr a.username b.username).swap))

/-- build_state.rs `TestInfo`: identity of a trial merge. -/
structure TestInfo where
  build_url : String
  merge_sha : String
  merge_branch : String
  source_project_id : Nat
  source_branch : String
  source_sha : String
  target_project_id : Nat
  target_branch : String
  target_sha : String
deriving DecidableEq, Repr

/-- build_state.rs `ApprovalKind`.  `δ` is the type of the serialized
description payload (a JSON string in the Rust code). -/
inductive ApprovalKind (δ : Type) where
  | NotApproved
  | Approved (desc : δ) (info : ApprovalInfo)
deriving DecidableEq, Repr

/-- `ApprovalKind::new_approved`: store the serialization alongside the info. -/
def ApprovalKind.new_approved {δ : Type} (enc : ApprovalInfo → δ)
    (info : ApprovalInfo) : ApprovalKind δ :=
  .Approved (enc info) info

/-- `ApprovalKind::info`. -/
def ApprovalKind.info {δ : Type} : ApprovalKind δ → Option ApprovalInfo
  | .NotApproved => none
  | .Approved _ i => some i

/-- `ApprovalKind::to_status_state`. -/
def ApprovalKind.to_status_state {δ : Type} : ApprovalKind δ → StatusState
  | .NotApproved => .Pending
  | .Approved _ _ => .Success

/-- build_state.rs `TestKind`. -/
inductive TestKind (δ : Type) where
  | Pending
  | Running (desc : δ) (info : TestInfo)
  | Success (desc : δ) (info : TestInfo)
  | Failed (payload : Option (δ × TestInfo))
  | Canceled (desc : δ) (info : TestInfo)
deriving DecidableEq, Repr

/-- `TestKind::new_running`. -/
def TestKind.new_running {δ : Type} (enc : TestInfo → δ) (info : TestInfo) :
    TestKind δ :=
  .Running (enc info) info

/-- `TestKind::new_success`. -/
def TestKind.new_success {δ : Type} (enc : TestInfo → δ) (info : TestInfo) :
    TestKind δ :=
  .Success (enc info) info

/-- `TestKind::new_failed`. -/
def TestKind.new_failed {δ : Type} (enc : TestInfo → δ) (info : TestInfo) :
    TestKind δ :=
  .Failed (some (enc info, info))

/-- `TestKind::new_canceled`. -/
def TestKind.new_canceled {δ : Type} (enc : TestInfo → δ) (info : TestInfo) :
    TestKind δ :=
  .Canceled (enc info) info

/-- `TestKind::info` (also `Test::info`, which matches on the same kinds). -/
def TestKind.info {δ : Type} : TestKind δ → Option TestInfo
  | .Pending => none
  | .Failed none => none
  | .Running _ i => some i
  | .Success _ i => some i
  | .Failed (some (_, i)) => some i
  | .Canceled _ i => some i

/-- `TestKind::to_status_state`. -/
def TestKind.to_status_state {δ : Type} : TestKind δ → StatusState
  | .Pending => .Pending
  | .Running _ _ => .Running
  | .Success _ _ => .Success
  | .Failed _ => .Failed
  | .Canceled _ _ => .Canceled

/-- merge_request.rs composite `State`. -/
inductive MRState where
  | Init
  | Approved (info : ApprovalInfo)
  | Running (info : ApprovalInfo)
  | Success (info : ApprovalInfo)
  | Merged (info : ApprovalInfo)
  | Failed (info : Option ApprovalInfo)
  | Errored
deriving DecidableEq, Repr

/-- merge_request.rs `MergeRequest::next_state` (lines 470-498), as a pure
function of the mergeability flag, the two track kinds and the merged flag. -/
def next_state {δ : Type} (ms : MergeStatus) (ak : ApprovalKind δ)
    (tk : TestKind δ) (merged : Bool) : MRState :=
  let can_be_merged :=
    match ms with
    | .Unchecked | .CanBeMerged => true
    | .CannotBeMerged => false
  let approval := ak.info
  if can_be_merged = false then
    .Failed approval
  else
    match approval with
    | some a =>
      match tk with
      | .Pending => .Approved a
      | .Running _ _ => .Running a
      | .Success _ _ => if merged then .Merged a else .Success a
      | .Failed _ => .Failed (some a)
      | .Canceled _ _ => .Failed (some a)
    | none => .Init

/-- The composite-state table exactly as written in spec §4.6 (the claim's
wording), for comparison with `next_state`. -/
def next_state_spec {δ : Type} (ms : MergeStatus) (ak : ApprovalKind δ)
    (tk : TestKind δ) (merged : Bool) : MRState :=
  if ms = .CannotBeMerged then .Failed ak.info
  else
    match ak with
    | .NotApproved => .Init
    | .Approved _ info =>
      match tk with
      | .Pending => .Approved info
      | .Running _ _ => .Running info
      | .Success _ _ => if merged then .Merged info else .Success info
      | .Failed _ => .Failed (some info)
      | .Canceled _ _ => .Failed (some info)

/-- C1: for every merge request controller, `next_state()` is total and
deterministic in (mergeability flag, ApprovalKind, TestKind, merged flag) --
it is a pure Lean function of exactly these four arguments -- and agrees with
the spec table of §4.6: CannotBeMerged gives Failed with the approval info
when present; otherwise NotApproved gives Init; otherwise Pending gives
Approved, Running gives Running, Success gives Merged or Success according to
the merged flag, and Failed or Canceled gives Failed (Some info). -/
theorem next_state_follows_spec_table :
    ∀ (δ : Type) (ms : MergeStatus) (ak : ApprovalKind δ) (tk : TestKind δ)
      (merged : Bool),
      next_state ms ak tk merged = next_state_spec ms ak tk merged := by
  intro δ ms ak tk merged
  cases ms <;> cases ak <;> cases tk <;> cases merged <;> rfl

/-- build_state.rs `State::sync` (lines 39-80): the cancel decision, as a
function of the prior remote state (`old_state`) and the new projected state. -/
def need_cancel : Option StatusState → StatusState → Bool
  | none, _ => false
  | some .Pending, .Pending => true
  | some .Pending, _ => false
  | some .Running, .Pending => true
  | some .Running, .Running => true
  | some .Running, _ => false
  | some .Success, .Pending => true
  | some .Success, .Running => true
  | some .Success, .Success => true
  | some .Success, _ => false
  | some .Failed, .Failed => true
  | some .Failed, _ => false
  | some .Canceled, _ => false

/-- The sequence of commit-status states written by `State::sync`: an optional
Canceled record first, then always the record for the new state. -/
def sync_writes (old : Option StatusState) (new_state : StatusState) :
    List StatusState :=
  (if need_cancel old new_state then [StatusState.Canceled] else []) ++
    [new_state]

/-- The cancel set exactly as enumerated by the claim (spec §4.5). -/
def cancel_pairs : List (StatusState × StatusState) :=
  [(.Pending, .Pending),
   (.Running, .Pending), (.Running, .Running),
   (.Success, .Pending), (.Success, .Running), (.Success, .Success),
   (.Failed, .Failed)]

/-- C5: `sync` writes a Canceled record before the new record exactly when the
(prior remote state, new state) pair is in the cancel set; a prior Canceled
state never triggers a cancel, a first write (no prior record) never triggers
a cancel, and the record for the new state is always written last. -/
theorem sync_cancel_set_and_order :
    ∀ (old : Option StatusState) (n : StatusState),
      (need_cancel old n =
        match old with
        | none => false
        | some o => cancel_pairs.contains (o, n)) ∧
      need_cancel none n = false ∧
      need_cancel (some .Canceled) n = false ∧
      (sync_writes old n).getLast? = some n ∧
      sync_writes old n =
        (if need_cancel old n then [StatusState.Canceled] else []) ++ [n] := by
  intro old n
  refine ⟨?_, ?_, ?_, ?_, rfl⟩
  · cases old with
    | none => rfl
    | some o => cases o <;> cases n <;> rfl
  · rfl
  · cases n <;> rfl
  · cases h : need_cancel old n <;> simp [sync_writes, h]

/-- merge_request.rs `MergeRequest::update_test_status`, lines 429-442: the
CI-verdict derivation from the latest builds of the trial commit (the
`next_kind` chain of `any`/`all` tests), given the track's `TestInfo`. -/
def update_test_kind {δ : Type} (enc : TestInfo → δ) (info : TestInfo)
    (builds : List StatusState) : TestKind δ :=
  if builds.any (fun b => b == .Pending || b == .Running) then
    TestKind.new_running enc info
  else if builds.any (fun b => b == .Canceled) then
    TestKind.new_canceled enc info
  else if builds.any (fun b => b == .Failed) then
    TestKind.new_failed enc info
  else if builds.all (fun b => b == .Success) then
    TestKind.new_success enc info
  else
    TestKind.new_running enc info

/-- A concrete `TestInfo` used by concrete-input theorems. -/
def testInfo0 : TestInfo :=
  { build_url := "https://git.example/p/commit/abc/builds"
    merge_sha := "abc"
    merge_branch := "auto-master"
    source_project_id := 2
    source_branch := "feature"
    source_sha := "def"
    target_project_id := 1
    target_branch := "master"
    target_sha := "0a1" }

/-- The unit description encoder: used where the serialized description
payload is irrelevant to the property being proved. -/
def encUnit : TestInfo → Unit := fun _ => ()

/-- C3 counterexample: on an empty build list `update_test_status` derives
`Success` (the `all`-Success test is vacuously true), not `Running` as the
claim states. -/
theorem update_test_kind_nil_counterexample :
    update_test_kind encUnit testInfo0 [] =
      TestKind.new_success encUnit testInfo0 ∧
    update_test_kind encUnit testInfo0 [] ≠
      TestKind.new_running encUnit testInfo0 := by
  refine ⟨rfl, ?_⟩
  decide

/-- C3 (amended): the CI verdict precedence: any Pending or Running build
gives Running; else any Canceled gives Canceled; else any Failed gives
Failed; else when all builds are Success (in particular when the build list
is empty, where the check holds vacuously) it gives Success; the final
fall-through Running branch is unreachable because a build state that is not
Pending, Running, Canceled or Failed must be Success. -/
theorem update_test_kind_precedence :
    ∀ (δ : Type) (enc : TestInfo → δ) (info : TestInfo)
      (builds : List StatusState),
      (builds.any (fun b => b == .Pending || b == .Running) = true →
        update_test_kind enc info builds = TestKind.new_running enc info) ∧
      (builds.any (fun b => b == .Pending || b == .Running) = false →
        builds.any (fun b => b == .Canceled) = true →
        update_test_kind enc info builds = TestKind.new_canceled enc info) ∧
      (builds.any (fun b => b == .Pending || b == .Running) = false →
        builds.any (fun b => b == .Canceled) = false →
        builds.any (fun b => b == .Failed) = true →
        update_test_kind enc info builds = TestKind.new_failed enc info) ∧
      (builds.any (fun b => b == .Pending || b == .Running) = false →
        builds.any (fun b => b == .Canceled) = false →
        builds.any (fun b => b == .Failed) = false →
        update_test_kind enc info builds = TestKind.new_success enc info) ∧
      (update_test_kind enc info [] = TestKind.new_success enc info) := by
  intro δ enc info builds
  refine ⟨?_, ?_, ?_, ?_, rfl⟩
  · intro h; simp [update_test_kind, h]
  · intro h1 h2; simp [update_test_kind, h1, h2]
  · intro h1 h2 h3; simp [update_test_kind, h1, h2, h3]
  · intro h1 h2 h3
    have hall : builds.all (fun b => b == .Success) = true := by
      rw [List.all_eq_true]
      intro b hb
      rw [List.any_eq_false] at h1 h2 h3
      have c1 := h1 b hb
      have c2 := h2 b hb
      have c3 := h3 b hb
      cases b <;> simp_all
    simp [update_test_kind, h1, h2, h3, hall]

/-- C3 witness: the amended precedence theorem evaluated at concrete build
lists (one Canceled among Successes gives Canceled; all Success gives
Success). -/
theorem update_test_kind_precedence_witness :
    update_test_kind encUnit testInfo0 [.Success, .Canceled, .Failed] =
      TestKind.new_canceled encUnit testInfo0 ∧
    update_test_kind encUnit testInfo0 [.Success, .Success] =
      TestKind.new_success encUnit testInfo0 := by
  constructor
  · exact (update_test_kind_precedence Unit encUnit testInfo0
      [.Success, .Canceled, .Failed]).2.1 (by decide) (by decide)
  · exact (update_test_kind_precedence Unit encUnit testInfo0
      [.Success, .Success]).2.2.2.1 (by decide) (by decide) (by decide)

/-! Comparison algebra for the approval ordering (C2). -/

theorem ordSwap_eq_gt (o : Ordering) : o.swap = .gt ↔ o = .lt := by
  cases o <;> simp [Ordering.swap]

theorem ordSwap_eq_eq (o : Ordering) : o.swap = .eq ↔ o = .eq := by
  cases o <;> simp [Ordering.swap]

theorem cmpNat_eq_gt (a b : Nat) : cmpNat a b = .gt ↔ b < a := by
  unfold cmpNat; split <;> rename_i h1
  · simp; omega
  · split <;> rename_i h2 <;> simp <;> omega

theorem cmpNat_eq_eq (a b : Nat) : cmpNat a b = .eq ↔ a = b := by
  unfold cmpNat; split <;> rename_i h1
  · simp; omega
  · split <;> rename_i h2 <;> simp <;> omega

theorem cmpInt_eq_lt (a b : Int) : cmpInt a b = .lt ↔ a < b := by
  unfold cmpInt; split <;> rename_i h1
  · simp; omega
  · split <;> rename_i h2 <;> simp <;> omega

theorem cmpInt_eq_eq (a b : Int) : cmpInt a b = .eq ↔ a = b := by
  unfold cmpInt; split <;> rename_i h1
  · simp; omega
  · split <;> rename_i h2 <;> simp <;> omega

theorem char_toNat_inj {a b : Char} (h : a.toNat = b.toNat) : a = b := by
  apply Char.eq_of_val_eq
  apply UInt32.eq_of_toBitVec_eq
  apply BitVec.eq_of_toNat_eq
  exact h

theorem listCharCmp_eq_eq (a b : List Char) : listCharCmp a b = .eq ↔ a = b := by
  induction a generalizing b with
  | nil => cases b <;> simp [listCharCmp]
  | cons x xs ih =>
    cases b with
    | nil => simp [listCharCmp]
    | cons y ys =>
      unfold listCharCmp
      split <;> rename_i h1
      · simp; intro he; subst he; omega
      · split <;> rename_i h2
        · simp; intro he; subst he; omega
        · have hxy : x = y := char_toNat_inj (by omega)
          subst hxy
          simp [ih]

theorem listCharCmp_lt_trans {a b c : List Char} (h1 : listCharCmp a b = .lt)
    (h2 : listCharCmp b c = .lt) : listCharCmp a c = .lt := by
  induction a generalizing b c with
  | nil =>
    cases c with
    | nil =>
      cases b with
      | nil => simp [listCharCmp] at h1
      | cons y ys => simp [listCharCmp] at h2
    | cons z zs => simp [listCharCmp]
  | cons x xs ih =>
    cases b with
    | nil => simp [listCharCmp] at h1
    | cons y ys =>
      cases c with
      | nil => simp [listCharCmp] at h2
      | cons z zs =>
        unfold listCharCmp at h1 h2 ⊢
        split at h1 <;> rename_i ha1
        · split at h2 <;> rename_i hb1
          · simp [show x.toNat < z.toNat by omega]
          · split at h2 <;> rename_i hb2
            · simp at h2
            · simp [show x.toNat < z.toNat by omega]
        · split at h1 <;> rename_i ha2
          · simp at h1
          · split at h2 <;> rename_i hb1
            · simp [show x.toNat < z.toNat by omega]
            · split at h2 <;> rename_i hb2
              · simp at h2
              · simp [show ¬ x.toNat < z.toNat by omega,
                  show ¬ z.toNat < x.toNat by omega]
                exact ih h1 h2

theorem strLt_trans {a b c : String} (h1 : strLt a b) (h2 : strLt b c) :
    strLt a c :=
  listCharCmp_lt_trans h1 h2

theorem cmpStr_eq_eq (a b : String) : cmpStr a b = .eq ↔ a = b := by
  unfold cmpStr
  rw [listCharCmp_eq_eq]
  constructor
  · intro h; cases a; cases b; exact congrArg String.mk h
  · intro h; rw [h]

/-- Characterization of the approval ordering: `a` ranks strictly above `b`
iff `a` has higher priority, or equal priority and earlier time, or equal
priority and time and lexicographically smaller username. -/
theorem approvalCmp_eq_gt (a b : ApprovalInfo) :
    ApprovalInfo.cmp a b = .gt ↔
      (b.priority < a.priority ∨
        (a.priority = b.priority ∧
          (a.time < b.time ∨
            (a.time = b.time ∧ strLt a.username b.username)))) := by
  unfold ApprovalInfo.cmp
  rw [Ordering.then_eq_gt, Ordering.then_eq_gt, ordSwap_eq_gt,
    ordSwap_eq_eq, ordSwap_eq_gt, cmpNat_eq_gt, cmpNat_eq_eq,
    cmpInt_eq_lt, cmpInt_eq_eq]
  rfl

theorem approvalCmp_eq_eq (a b : ApprovalInfo) :
    ApprovalInfo.cmp a b = .eq ↔
      (a.priority = b.priority ∧ a.time = b.time ∧ a.username = b.username) := by
  unfold ApprovalInfo.cmp
  rw [Ordering.then_eq_eq, Ordering.then_eq_eq, ordSwap_eq_eq,
    ordSwap_eq_eq, cmpNat_eq_eq, cmpInt_eq_eq, cmpStr_eq_eq]

theorem approvalCmp_self (a : ApprovalInfo) : ApprovalInfo.cmp a a = .eq := by
  rw [approvalCmp_eq_eq]; exact ⟨rfl, rfl, rfl⟩

theorem approvalCmp_gt_trans {a b c : ApprovalInfo}
    (h1 : ApprovalInfo.cmp a b = .gt) (h2 : ApprovalInfo.cmp b c = .gt) :
    ApprovalInfo.cmp a c = .gt := by
  rw [approvalCmp_eq_gt] at h1 h2 ⊢
  rcases h1 with h1 | ⟨e1, h1⟩
  · rcases h2 with h2 | ⟨e2, h2⟩
    · left; omega
    · left; omega
  · rcases h2 with h2 | ⟨e2, h2⟩
    · left; omega
    · right
      refine ⟨by omega, ?_⟩
      rcases h1 with h1 | ⟨t1, h1⟩
      · rcases h2 with h2 | ⟨t2, h2⟩
        · left; omega
        · left; omega
      · rcases h2 with h2 | ⟨t2, h2⟩
        · left; omega
        · right
          exact ⟨by omega, strLt_trans h1 h2⟩

theorem approvalCmp_gt_of_gt_eq {a b c : ApprovalInfo}
    (h1 : ApprovalInfo.cmp a b = .gt) (h2 : ApprovalInfo.cmp b c = .eq) :
    ApprovalInfo.cmp a c = .gt := by
  rw [approvalCmp_eq_eq] at h2
  obtain ⟨e1, e2, e3⟩ := h2
  rw [approvalCmp_eq_gt] at h1 ⊢
  rw [← e1, ← e2, ← e3]
  exact h1

/-- Model of `BinaryHeap<SortBy<ApprovalInfo, _>>::pop` (main.rs): the heap is
a list of (key, value) pairs whose pop removes a maximal element under
`ApprovalInfo.cmp` on the key (`SortBy` compares by the key only; among
key-equal elements the choice is unspecified in a binary heap, here the
leftmost maximal element is taken). -/
def popMax {α : Type} :
    List (ApprovalInfo × α) →
      Option ((ApprovalInfo × α) × List (ApprovalInfo × α))
  | [] => none
  | x :: xs =>
    match popMax xs with
    | none => some (x, [])
    | some (m, rest) =>
      if ApprovalInfo.cmp x.1 m.1 = .lt then some (m, x :: rest)
      else some (x, xs)

theorem popMax_eq_none_iff {α : Type} (l : List (ApprovalInfo × α)) :
    popMax l = none ↔ l = [] := by
  cases l with
  | nil => simp [popMax]
  | cons x xs =>
    simp only [popMax]
    cases h : popMax xs with
    | none => simp
    | some p =>
      obtain ⟨m, rest⟩ := p
      by_cases hc : ApprovalInfo.cmp x.1 m.1 = .lt <;> simp [hc]

theorem popMax_length {α : Type} {l : List (ApprovalInfo × α)}
    {m : ApprovalInfo × α} {rest : List (ApprovalInfo × α)}
    (h : popMax l = some (m, rest)) : rest.length + 1 = l.length := by
  induction l generalizing m rest with
  | nil => simp [popMax] at h
  | cons x xs ih =>
    simp only [popMax] at h
    cases hx : popMax xs with
    | none =>
      rw [hx] at h
      have : xs = [] := (popMax_eq_none_iff xs).mp hx
      subst this
      simp at h
      obtain ⟨h1, h2⟩ := h
      subst h2; rfl
    | some p =>
      obtain ⟨m', rest'⟩ := p
      rw [hx] at h
      by_cases hc : ApprovalInfo.cmp x.1 m'.1 = .lt
      · simp [hc] at h
        obtain ⟨h1, h2⟩ := h
        subst h2
        have := ih hx
        simp
        omega
      · simp [hc] at h
        obtain ⟨h1, h2⟩ := h
        subst h2; rfl

theorem popMax_mem {α : Type} {l : List (ApprovalInfo × α)}
    {m : ApprovalInfo × α} {rest : List (ApprovalInfo × α)}
    (h : popMax l = some (m, rest)) : m ∈ l := by
  induction l generalizing m rest with
  | nil => simp [popMax] at h
  | cons x xs ih =>
    simp only [popMax] at h
    cases hx : popMax xs with
    | none =>
      rw [hx] at h
      simp at h
      simp [h.1]
    | some p =>
      obtain ⟨m', rest'⟩ := p
      rw [hx] at h
      by_cases hc : ApprovalInfo.cmp x.1 m'.1 = .lt
      · simp [hc] at h
        right
        rw [← h.1]
        exact ih hx
      · simp [hc] at h
        simp [h.1]

theorem popMax_rest_subset {α : Type} {l : List (ApprovalInfo × α)}
    {m : ApprovalInfo × α} {rest : List (ApprovalInfo × α)}
    (h : popMax l = some (m, rest)) : ∀ y ∈ rest, y ∈ l := by
  induction l generalizing m rest with
  | nil => simp [popMax] at h
  | cons x xs ih =>
    simp only [popMax] at h
    cases hx : popMax xs with
    | none =>
      rw [hx] at h
      simp at h
      intro y hy
      rw [h.2] at hy
      simp at hy
    | some p =>
      obtain ⟨m', rest'⟩ := p
      rw [hx] at h
      by_cases hc : ApprovalInfo.cmp x.1 m'.1 = .lt
      · simp [hc] at h
        intro y hy
        rw [← h.2] at hy
        rcases List.mem_cons.mp hy with hy | hy
        · simp [hy]
        · exact List.mem_cons_of_mem _ (ih hx y hy)
      · simp [hc] at h
        intro y hy
        rw [← h.2] at hy
        exact List.mem_cons_of_mem _ hy

theorem popMax_is_max {α : Type} {l : List (ApprovalInfo × α)}
    {m : ApprovalInfo × α} {rest : List (ApprovalInfo × α)}
    (h : popMax l = some (m, rest)) :
    ∀ y ∈ l, ApprovalInfo.cmp y.1 m.1 ≠ .gt := by
  induction l generalizing m rest with
  | nil => simp [popMax] at h
  | cons x xs ih =>
    simp only [popMax] at h
    cases hx : popMax xs with
    | none =>
      rw [hx] at h
      have : xs = [] := (popMax_eq_none_iff xs).mp hx
      subst this
      simp at h
      intro y hy
      simp at hy
      subst hy
      rw [← h.1, approvalCmp_self]
      simp
    | some p =>
      obtain ⟨m', rest'⟩ := p
      rw [hx] at h
      by_cases hc : ApprovalInfo.cmp x.1 m'.1 = .lt
      · simp [hc] at h
        intro y hy
        rw [← h.1]
        rcases List.mem_cons.mp hy with hy | hy
        · subst hy; rw [hc]; simp
        · exact ih hx y hy
      · simp [hc] at h
        intro y hy
        rw [← h.1]
        rcases List.mem_cons.mp hy with hy | hy
        · subst hy; rw [approvalCmp_self]; simp
        · intro hgt
          have hym : ApprovalInfo.cmp y.1 m'.1 ≠ .gt := ih hx y hy
          have : ApprovalInfo.cmp x.1 m'.1 = .eq ∨ ApprovalInfo.cmp x.1 m'.1 = .gt := by
            cases hcc : ApprovalInfo.cmp x.1 m'.1 <;> simp_all
          rcases this with he | hg
          · exact hym (approvalCmp_gt_of_gt_eq hgt he)
          · exact hym (approvalCmp_gt_trans hgt hg)

/-- Concrete approval infos for C2: equal priority and time, usernames
differing lexicographically. -/
def approvalAlice : ApprovalInfo := { priority := 1, time := 0, username := "alice" }

/-- Second concrete approval info for C2. -/
def approvalBob : ApprovalInfo := { priority := 1, time := 0, username := "bob" }

/-- C2 counterexample: the claim says remaining ties are broken by
lexicographically greater username first, but the code reverses the username
comparison, so at equal priority and time the lexicographically smaller
username ranks first: "alice" outranks "bob", and the heap pop returns the
"alice" element, not the "bob" element the claim predicts. -/
theorem approval_order_username_counterexample :
    ApprovalInfo.cmp approvalAlice approvalBob = .gt ∧
    ApprovalInfo.cmp approvalBob approvalAlice = .lt ∧
    strLt approvalAlice.username approvalBob.username ∧
    popMax [(approvalBob, 0), (approvalAlice, 1)] =
      some ((approvalAlice, 1), [(approvalBob, 0)]) := by
  refine ⟨by decide, by decide, by decide, by decide⟩

/-- C2 (amended): the ordering used by the priority heaps ranks higher
priority first, breaks priority ties by earlier time first, and breaks
remaining ties by lexicographically smaller username first (the code
reverses the username comparison); every heap pop returns a maximal element
under exactly this order (and pop on an empty heap returns nothing). -/
theorem approval_order_and_heap_pop :
    (∀ (a b : ApprovalInfo),
      ApprovalInfo.cmp a b = .gt ↔
        (b.priority < a.priority ∨
          (a.priority = b.priority ∧
            (a.time < b.time ∨
              (a.time = b.time ∧ strLt a.username b.username))))) ∧
    (∀ (α : Type) (l : List (ApprovalInfo × α)) (m : ApprovalInfo × α)
      (rest : List (ApprovalInfo × α)),
      popMax l = some (m, rest) →
        m ∈ l ∧ rest.length + 1 = l.length ∧
          (∀ y ∈ l, ApprovalInfo.cmp y.1 m.1 ≠ .gt)) ∧
    (∀ (α : Type) (l : List (ApprovalInfo × α)),
      popMax l = none ↔ l = []) := by
  refine ⟨approvalCmp_eq_gt, ?_, ?_⟩
  · intro α l m rest h
    exact ⟨popMax_mem h, popMax_length h, popMax_is_max h⟩
  · intro α l
    exact popMax_eq_none_iff l

/-- C2 witness: the amended ordering theorem applied at a concrete pop with
its hypothesis discharged by evaluation. -/
theorem approval_order_and_heap_pop_witness :
    (approvalAlice, 1) ∈ [(approvalBob, 0), (approvalAlice, 1)] ∧
    ([(approvalBob, 0)] : List (ApprovalInfo × Nat)).length + 1 =
      [(approvalBob, 0), (approvalAlice, 1)].length ∧
    (∀ y ∈ [(approvalBob, 0), (approvalAlice, 1)],
      ApprovalInfo.cmp y.1 approvalAlice = .gt → False) :=
  approval_order_and_heap_pop.2.1 Nat
    [(approvalBob, 0), (approvalAlice, 1)] (approvalAlice, 1)
    [(approvalBob, 0)] (by decide)

/-! Status codec (C6): commit-status records and the encode/decode pair of
build_state.rs.  The JSON layer (serde_json) is external library code; it is
modelled by an abstract description payload type `δ` with an encoder and a
decoder. -/

/-- An encoder/decoder pair modelling `serde_json::to_string` /
`serde_json::from_str` for an info type `α` (`dec d = none` models a parse
error). -/
structure Codec (α δ : Type) where
  enc : α → δ
  dec : δ → Option α

/-- gitlab `CommitStatus`, restricted to the fields build_state.rs reads and
writes: state, ref, name, description, target_url and sha. -/
structure CommitStatusRecord (δ : Type) where
  status : StatusState
  ref_ : Option String
  name : String
  description : Option δ
  target_url : Option String
  sha : String

/-- build_state.rs `Approval` track. -/
structure Approval (δ : Type) where
  project_id : Nat
  refname : String
  sha : String
  kind : ApprovalKind δ

/-- `Approval::to_commit_status_info` combined with `to_status_state`, `sha`
and `status_name`: the full commit-status record the Approval track projects
(the record `State::sync` writes for it). -/
def Approval.to_record {δ : Type} (t : Approval δ) : CommitStatusRecord δ :=
  { status := t.kind.to_status_state
    ref_ := some t.refname
    name := "jaba:approval"
    description :=
      match t.kind with
      | .NotApproved => none
      | .Approved desc _ => some desc
    target_url := none
    sha := t.sha }

/-- `ApprovalInfo::from_commit_status`: JSON-decode the description. -/
def ApprovalInfo.from_commit_status {δ : Type} (c : Codec ApprovalInfo δ)
    (r : CommitStatusRecord δ) : Option ApprovalInfo :=
  match r.description with
  | none => none
  | some d => c.dec d

/-- `ApprovalKind::from_commit_status` (build_state.rs lines 126-137). -/
def ApprovalKind.from_commit_status {δ : Type} (c : Codec ApprovalInfo δ)
    (r : CommitStatusRecord δ) : Option (ApprovalKind δ) :=
  match r.status with
  | .Pending => some .NotApproved
  | .Success =>
    match ApprovalInfo.from_commit_status c r with
    | none => none
    | some info => some (ApprovalKind.new_approved c.enc info)
  | _ => none

/-- build_state.rs `Test` track. -/
structure Test (δ : Type) where
  project_id : Nat
  refname : String
  sha : String
  kind : TestKind δ

/-- `Test::to_commit_status_info` (build_state.rs lines 462-480) combined
with `to_status_state`, `sha` and `status_name`. -/
def Test.to_record {δ : Type} (t : Test δ) : CommitStatusRecord δ :=
  let pair : Option String × Option δ :=
    match t.kind with
    | .Pending => (none, none)
    | .Failed none => (none, none)
    | .Running desc info => (some info.build_url, some desc)
    | .Success desc info => (some info.build_url, some desc)
    | .Failed (some (desc, info)) => (some info.build_url, some desc)
    | .Canceled desc info => (some info.build_url, some desc)
  { status := t.kind.to_status_state
    ref_ := some t.refname
    name := "jaba:test"
    description := pair.2
    target_url := pair.1
    sha := t.sha }

/-- `TestInfo::from_commit_status`: JSON-decode the description. -/
def TestInfo.from_commit_status {δ : Type} (c : Codec TestInfo δ)
    (r : CommitStatusRecord δ) : Option TestInfo :=
  match r.description with
  | none => none
  | some d => c.dec d

/-- `TestKind::from_commit_status` (build_state.rs lines 339-356).  The
`Pending` arm of the final match is unreachable in the source
(`unreachable!()`); it is guarded by the first early return. -/
def TestKind.from_commit_status {δ : Type} (c : Codec TestInfo δ)
    (r : CommitStatusRecord δ) : Option (TestKind δ) :=
  if r.status = .Pending then some .Pending
  else if r.status = .Failed ∧ r.description.isNone then some (.Failed none)
  else
    match TestInfo.from_commit_status c r with
    | none => none
    | some info =>
      match r.status with
      | .Pending => none
      | .Running => some (TestKind.new_running c.enc info)
      | .Success => some (TestKind.new_success c.enc info)
      | .Failed => some (TestKind.new_failed c.enc info)
      | .Canceled => some (TestKind.new_canceled c.enc info)

/-- Well-formedness of an `ApprovalKind` value: the stored description is the
serialization of the stored info, and that serialization decodes back.  Every
`ApprovalKind` the Rust code constructs has this shape (`new_approved` stores
`serde_json::to_string(&info)`, and serde round-trips these records). -/
def ApprovalKindWF {δ : Type} (c : Codec ApprovalInfo δ) :
    ApprovalKind δ → Prop
  | .NotApproved => True
  | .Approved d i => d = c.enc i ∧ c.dec d = some i

/-- Well-formedness of a `TestKind` value, as for `ApprovalKindWF`. -/
def TestKindWF {δ : Type} (c : Codec TestInfo δ) : TestKind δ → Prop
  | .Pending => True
  | .Failed none => True
  | .Running d i => d = c.enc i ∧ c.dec d = some i
  | .Success d i => d = c.enc i ∧ c.dec d = some i
  | .Failed (some (d, i)) => d = c.enc i ∧ c.dec d = some i
  | .Canceled d i => d = c.enc i ∧ c.dec d = some i

/-- C6: decoding the commit-status record that encodes an ApprovalKind yields
the same kind again, and likewise for TestKind (for the well-formed kind
values the code constructs, whose description is the serialization of their
info); a Failed test record with no description decodes to `Failed None`;
and a Running or Canceled test record whose description is missing or does
not parse as TestInfo JSON is a decode error. -/
theorem commit_status_roundtrip :
    (∀ (δ : Type) (c : Codec ApprovalInfo δ) (t : Approval δ),
      ApprovalKindWF c t.kind →
        ApprovalKind.from_commit_status c t.to_record = some t.kind) ∧
    (∀ (δ : Type) (c : Codec TestInfo δ) (t : Test δ),
      TestKindWF c t.kind →
        TestKind.from_commit_status c t.to_record = some t.kind) ∧
    (∀ (δ : Type) (c : Codec TestInfo δ) (r : CommitStatusRecord δ),
      r.status = .Failed → r.description = none →
        TestKind.from_commit_status c r = some (.Failed none)) ∧
    (∀ (δ : Type) (c : Codec TestInfo δ) (r : CommitStatusRecord δ),
      (r.status = .Running ∨ r.status = .Canceled) →
      (r.description = none ∨
        (∃ d, r.description = some d ∧ c.dec d = none)) →
        TestKind.from_commit_status c r = none) := by
  refine ⟨?_, ?_, ?_, ?_⟩
  · intro δ c t hwf
    cases hk : t.kind with
    | NotApproved =>
      simp [ApprovalKind.from_commit_status, Approval.to_record, hk,
        ApprovalKind.to_status_state]
    | Approved d i =>
      rw [hk] at hwf
      obtain ⟨hd, hdec⟩ := hwf
      simp [ApprovalKind.from_commit_status, Approval.to_record, hk,
        ApprovalKind.to_status_state, ApprovalInfo.from_commit_status, hdec,
        ApprovalKind.new_approved, ← hd]
  · intro δ c t hwf
    cases hk : t.kind with
    | Pending =>
      simp [TestKind.from_commit_status, Test.to_record, hk,
        TestKind.to_status_state]
    | Running d i =>
      rw [hk] at hwf
      obtain ⟨hd, hdec⟩ := hwf
      simp [TestKind.from_commit_status, Test.to_record, hk,
        TestKind.to_status_state, TestInfo.from_commit_status, hdec,
        TestKind.new_running, ← hd]
    | Success d i =>
      rw [hk] at hwf
      obtain ⟨hd, hdec⟩ := hwf
      simp [TestKind.from_commit_status, Test.to_record, hk,
        TestKind.to_status_state, TestInfo.from_commit_status, hdec,
        TestKind.new_success, ← hd]
    | Canceled d i =>
      rw [hk] at hwf
      obtain ⟨hd, hdec⟩ := hwf
      simp [TestKind.from_commit_status, Test.to_record, hk,
        TestKind.to_status_state, TestInfo.from_commit_status, hdec,
        TestKind.new_canceled, ← hd]
    | Failed payload =>
      cases payload with
      | none =>
        simp [TestKind.from_commit_status, Test.to_record, hk,
          TestKind.to_status_state]
      | some p =>
        obtain ⟨d, i⟩ := p
        rw [hk] at hwf
        obtain ⟨hd, hdec⟩ := hwf
        simp [TestKind.from_commit_status, Test.to_record, hk,
          TestKind.to_status_state, TestInfo.from_commit_status, hdec,
          TestKind.new_failed, ← hd]
  · intro δ c r h1 h2
    simp [TestKind.from_commit_status, h1, h2]
  · intro δ c r h1 h2
    have hnp : ¬ r.status = .Pending := by
      rcases h1 with h | h <;> rw [h] <;> intro hc <;> exact absurd hc (by simp)
    have hnf : ¬ (r.status = .Failed ∧ r.description.isNone) := by
      rcases h1 with h | h <;> rw [h] <;> intro hc <;> exact absurd hc.1 (by simp)
    have hnfs : ¬ r.status = .Failed := by
      rcases h1 with h | h <;> rw [h] <;> intro hc <;> exact absurd hc (by simp)
    rcases h2 with hd | ⟨d, hd, hdec⟩
    · simp [TestKind.from_commit_status, hnp, hnf, hnfs,
        TestInfo.from_commit_status, hd]
    · rcases h1 with h | h <;>
        simp [TestKind.from_commit_status, hnp, hnf,
          TestInfo.from_commit_status, hd, hdec, h]

/-- The identity codec on ApprovalInfo payloads, used as the concrete codec
of the C6 witness. -/
def idCodecApproval : Codec ApprovalInfo ApprovalInfo :=
  { enc := fun i => i, dec := fun i => some i }

/-- The identity codec on TestInfo payloads, used as the concrete codec of
the C6 witness. -/
def idCodecTest : Codec TestInfo TestInfo :=
  { enc := fun i => i, dec := fun i => some i }

/-- C6 witness: the round-trip theorem applied to concrete tracks (an
approved Approval track and a Running test track) with the well-formedness
hypotheses discharged by evaluation, and the decode-error case applied to a
concrete Running record with no description. -/
theorem commit_status_roundtrip_witness :
    ApprovalKind.from_commit_status idCodecApproval
      (Approval.to_record
        { project_id := 1, refname := "feature", sha := "abc",
          kind := .Approved approvalAlice approvalAlice }) =
      some (.Approved approvalAlice approvalAlice) ∧
    TestKind.from_commit_status idCodecTest
      (Test.to_record
        { project_id := 1, refname := "feature", sha := "abc",
          kind := .Running testInfo0 testInfo0 }) =
      some (.Running testInfo0 testInfo0) ∧
    TestKind.from_commit_status idCodecTest
      { status := .Running, ref_ := some "feature", name := "jaba:test",
        description := none, target_url := none, sha := "abc" } = none := by
  refine ⟨?_, ?_, ?_⟩
  · exact commit_status_roundtrip.1 ApprovalInfo idCodecApproval
      { project_id := 1, refname := "feature", sha := "abc",
        kind := .Approved approvalAlice approvalAlice } ⟨rfl, rfl⟩
  · exact commit_status_roundtrip.2.1 TestInfo idCodecTest
      { project_id := 1, refname := "feature", sha := "abc",
        kind := .Running testInfo0 testInfo0 } ⟨rfl, rfl⟩
  · exact commit_status_roundtrip.2.2.2 TestInfo idCodecTest
      { status := .Running, ref_ := some "feature", name := "jaba:test",
        description := none, target_url := none, sha := "abc" }
      (Or.inl rfl) (Or.inl rfl)

/-! Command parser (C8): merge_request.rs `parse_command` (lines 591-613).
Tokenization is performed on the character list of the note, mirroring
`str::split_whitespace` (the claims only exercise ASCII input, where Lean's
`Char.isWhitespace` and Rust's `char::is_whitespace` agree). -/

/-- Whitespace tokenizer: split at whitespace characters, dropping empty
tokens, as `str::split_whitespace` does.  `acc` is the current token being
accumulated, in reverse. -/
def splitWhitespaceAux : List Char → List Char → List (List Char)
  | [], acc => if acc = [] then [] else [acc.reverse]
  | ch :: rest, acc =>
    if ch.isWhitespace then
      if acc = [] then splitWhitespaceAux rest []
      else acc.reverse :: splitWhitespaceAux rest []
    else splitWhitespaceAux rest (ch :: acc)

/-- The whitespace-separated tokens of a string. -/
def split_whitespace (s : String) : List (List Char) :=
  splitWhitespaceAux s.data []

/-- Structural worker for `trimLeftMatchesList`.  Each iteration removes at
least one character (the stripped prefix is non-empty), so a fuel of the
initial list length makes this exactly the unguarded loop: when the fuel is
exhausted the list has shrunk to `[]`, of which a non-empty `p` is never a
prefix. -/
def trimLeftMatchesAux (p : List Char) : Nat → List Char → List Char
  | 0, l => l
  | fuel + 1, l =>
    if p ≠ [] ∧ p.isPrefixOf l = true then
      trimLeftMatchesAux p fuel (l.drop p.length)
    else l

/-- Rust `str::trim_left_matches`: repeatedly remove the prefix `p` from the
front of `l` while it matches. -/
def trimLeftMatchesList (p : List Char) (l : List Char) : List Char :=
  trimLeftMatchesAux p l.length l

/-- Rust `u64::from_str` on a token: an optional leading '+', then a
non-empty run of decimal digits whose value fits in a u64. -/
def parse_u64 (l : List Char) : Option Nat :=
  let l1 := if l.head? = some '+' then l.drop 1 else l
  if l1 = [] then none
  else if l1.all (fun ch => ch.isDigit) then
    let n := l1.foldl (fun acc ch => acc * 10 + (ch.toNat - 48)) 0
    if n < 2 ^ 64 then some n else none
  else none

/-- merge_request.rs `Command`. -/
inductive Command where
  | Approve (priority : Nat)
  | CancelApprove
deriving DecidableEq, Repr

/-- gitlab `UserFull`, restricted to the `username` field the parser uses
(the bot's own login). -/
structure UserFull where
  username : String
deriving DecidableEq, Repr

/-- The part of `parse_command` that runs after the iterator has been
advanced past the first `@<bot-login>` token: examine the next token (and,
for `r+`, possibly the one after it). -/
def parse_mention_tokens : List (List Char) → Option Command
  | [] => none
  | w :: rest =>
    if w = ['r', '+'] then
      let priority :=
        match rest with
        | [] => 0
        | s :: _ =>
          if (['p', '='].isPrefixOf s) = true then
            (parse_u64 (trimLeftMatchesList ['p', '='] s)).getD 0
          else 0
      some (.Approve priority)
    else if w = ['r', '-'] then some .CancelApprove
    else none

/-- The token stream of `command` after skipping to the first token equal to
`@<me.username>` and dropping that token itself (the
`skip_while(...).skip(1)` of the source). -/
def tokens_after_mention (command : String) (me : UserFull) :
    List (List Char) :=
  let mention : List Char := '@' :: me.username.data
  ((split_whitespace command).dropWhile (fun w => w ≠ mention)).drop 1

/-- merge_request.rs `parse_command` (lines 591-613). -/
def parse_command (command : String) (me : UserFull) : Option Command :=
  parse_mention_tokens (tokens_after_mention command me)

/-- C8 counterexample: for the note `"@bot r+ p=p=3"` the code answers
`Approve(3)`: `trim_left_matches("p=")` strips the prefix `p=` repeatedly,
so the token `p=p=3` contributes `3`.  The claim's reading (the decimal u64
of the `p=` token, i.e. of what follows a single `p=`) is unparsable here
(`p=3` is not a decimal numeral) and would give priority 0. -/
theorem parse_command_priority_counterexample :
    parse_command "@bot r+ p=p=3" { username := "bot" } =
      some (.Approve 3) ∧
    (parse_u64 (List.drop 2 "p=p=3".data)).getD 0 = 0 ∧
    some (Command.Approve 3) ≠ some (Command.Approve 0) := by
  refine ⟨by decide, by decide, by decide⟩

/-- C8 (amended): the parser splits on whitespace, skips to the first token
equal to `@<bot-login>`, and examines at most the next two tokens: `r+`
yields `Approve(priority)` where the priority comes from the immediately
following token when it starts with `p=` -- all leading `p=` occurrences are
stripped and the remainder is parsed as a decimal u64 -- and is 0 when that
token is absent, lacks the `p=` prefix, or does not parse; `r-` yields
`CancelApprove`; anything else yields no directive; a comment yields at most
one directive and only the first mention is honored.  Boundary examples:
`"@bot r+ p=7 extra"` gives Approve(7), `"@bot r+"` gives Approve(0),
`"lgtm @bot"` gives no directive, and `"@bot r- @bot r+"` gives
CancelApprove. -/
theorem parse_command_behavior :
    (parse_command "@bot r+ p=7 extra" { username := "bot" } =
      some (.Approve 7)) ∧
    (parse_command "@bot r+" { username := "bot" } = some (.Approve 0)) ∧
    (parse_command "lgtm @bot" { username := "bot" } = none) ∧
    (parse_command "@bot r- @bot r+" { username := "bot" } =
      some .CancelApprove) ∧
    (∀ (command : String) (me : UserFull),
      parse_command command me =
        parse_mention_tokens (tokens_after_mention command me)) ∧
    (parse_mention_tokens [] = none) ∧
    (∀ (w1 w2 : List Char) (rest : List (List Char)),
      parse_mention_tokens (w1 :: w2 :: rest) =
        parse_mention_tokens [w1, w2]) ∧
    (∀ (rest : List (List Char)),
      parse_mention_tokens (['r', '-'] :: rest) = some .CancelApprove) ∧
    (∀ (s : List Char) (rest : List (List Char)),
      (['p', '='].isPrefixOf s) = true →
        parse_mention_tokens (['r', '+'] :: s :: rest) =
          some (.Approve
            ((parse_u64 (trimLeftMatchesList ['p', '='] s)).getD 0))) ∧
    (∀ (s : List Char) (rest : List (List Char)),
      (['p', '='].isPrefixOf s) = false →
        parse_mention_tokens (['r', '+'] :: s :: rest) =
          some (.Approve 0)) ∧
    (∀ (w : List Char) (rest : List (List Char)),
      w ≠ ['r', '+'] → w ≠ ['r', '-'] →
        parse_mention_tokens (w :: rest) = none) := by
  refine ⟨by decide, by decide, by decide, by decide, fun _ _ => rfl, rfl,
    ?_, ?_, ?_, ?_, ?_⟩
  · intro w1 w2 rest
    by_cases h1 : w1 = ['r', '+']
    · subst h1
      simp [parse_mention_tokens]
    · by_cases h2 : w1 = ['r', '-'] <;> simp [parse_mention_tokens, h1, h2]
  · intro rest
    simp [parse_mention_tokens]
  · intro s rest h
    simp [parse_mention_tokens, h]
  · intro s rest h
    simp [parse_mention_tokens, h]
  · intro w rest h1 h2
    cases rest <;> simp [parse_mention_tokens, h1, h2]

/-- C8 witness: the amended parser theorem applied at a concrete token list,
discharging the `p=`-prefix hypothesis by evaluation. -/
theorem parse_command_behavior_witness :
    parse_mention_tokens [['r', '+'], ['p', '=', '9']] =
      some (.Approve
        ((parse_u64 (trimLeftMatchesList ['p', '='] ['p', '=', '9'])).getD 0)) :=
  parse_command_behavior.2.2.2.2.2.2.2.2.1 ['p', '=', '9'] [] (by decide)

/-! Approval aggregation (C7): project.rs `is_reviewer` and merge_request.rs
`parse_comments` / `update_approval_status`. -/

/-- gitlab `Member`, restricted to the fields `is_reviewer` uses.  The
numeric access level of `AccessLevel::Master` in gitlab is 40. -/
structure Member where
  id : Nat
  access_level : Nat
deriving DecidableEq, Repr

/-- project.rs `Project::is_reviewer` (lines 139-146): find the first
membership record with the author's id and test its access level against
Master (the member list is project members followed by parent-group
members, as built in `Project::new`). -/
def is_reviewer (members : List Member) (id : Nat) : Bool :=
  match members.find? (fun m => m.id == id) with
  | some m => decide (40 ≤ m.access_level)
  | none => false

/-- gitlab `UserBasic` as used by comment authors. -/
structure UserRef where
  id : Nat
  username : String
deriving DecidableEq, Repr

/-- gitlab `CommitNote`: a commit comment. -/
structure CommitNote where
  note : String
  author : UserRef
  created_at : Int
deriving DecidableEq, Repr

/-- The loop body of `parse_comments` (merge_request.rs lines 619-632). -/
def parse_comments_step {δ : Type} (enc : ApprovalInfo → δ) (me : UserFull)
    (kind : ApprovalKind δ) (comment : CommitNote) : ApprovalKind δ :=
  match parse_command comment.note me with
  | some (.Approve p) =>
    ApprovalKind.new_approved enc
      { priority := p, time := comment.created_at,
        username := comment.author.username }
  | some .CancelApprove => ApprovalKind.NotApproved
  | none => kind

/-- merge_request.rs `parse_comments` (lines 615-634). -/
def parse_comments {δ : Type} (enc : ApprovalInfo → δ)
    (comments : List CommitNote) (me : UserFull) : ApprovalKind δ :=
  comments.foldl (parse_comments_step enc me) ApprovalKind.NotApproved

/-- The ApprovalKind computed by `update_approval_status` (merge_request.rs
lines 374-386): filter the comment stream to reviewer-authored comments,
then fold with `parse_comments`. -/
def derive_approval_kind {δ : Type} (enc : ApprovalInfo → δ)
    (members : List Member) (comments : List CommitNote) (me : UserFull) :
    ApprovalKind δ :=
  parse_comments enc
    (comments.filter (fun c => is_reviewer members c.author.id)) me

/-- The last comment of the stream carrying a recognized directive, with its
directive. -/
def last_directive (comments : List CommitNote) (me : UserFull) :
    Option (CommitNote × Command) :=
  (comments.filterMap
    (fun c => (parse_command c.note me).map (fun cmd => (c, cmd)))).getLast?

/-- The unit encoder for approval payloads. -/
def encApprovalUnit : ApprovalInfo → Unit := fun _ => ()

theorem parse_comments_filter_of_reviewer {δ : Type} (enc : ApprovalInfo → δ)
    (members : List Member) (me : UserFull) (comments : List CommitNote)
    (h : ∀ c ∈ comments, parse_command c.note me ≠ none →
      is_reviewer members c.author.id = true) :
    derive_approval_kind enc members comments me =
      parse_comments enc comments me := by
  unfold derive_approval_kind parse_comments
  suffices hgen : ∀ (acc : ApprovalKind δ),
      List.foldl (parse_comments_step enc me) acc
        (comments.filter (fun c => is_reviewer members c.author.id)) =
      List.foldl (parse_comments_step enc me) acc comments from hgen _
  induction comments with
  | nil => intro acc; rfl
  | cons c rest ih =>
    intro acc
    have hrest : ∀ x ∈ rest, parse_command x.note me ≠ none →
        is_reviewer members x.author.id = true := by
      intro x hx
      exact h x (List.mem_cons_of_mem _ hx)
    by_cases hrev : is_reviewer members c.author.id = true
    · rw [List.filter_cons_of_pos (by simpa using hrev)]
      simp only [List.foldl_cons]
      exact ih hrest _
    · have hnone : parse_command c.note me = none := by
        by_contra hne
        exact hrev (h c (List.mem_cons_self c rest) hne)
      rw [List.filter_cons_of_neg (by simpa using hrev)]
      have hstep : parse_comments_step enc me acc c = acc := by
        simp [parse_comments_step, hnone]
      rw [List.foldl_cons, hstep]
      exact ih hrest _

theorem parse_comments_last_directive {δ : Type} (enc : ApprovalInfo → δ)
    (comments : List CommitNote) (me : UserFull) :
    parse_comments enc comments me =
      (match last_directive comments me with
       | none => ApprovalKind.NotApproved
       | some (c, .Approve p) =>
         ApprovalKind.new_approved enc
           { priority := p, time := c.created_at,
             username := c.author.username }
       | some (_, .CancelApprove) => ApprovalKind.NotApproved) := by
  induction comments using List.reverseRecOn with
  | nil => rfl
  | append_singleton l c ih =>
    unfold parse_comments at ih ⊢
    rw [List.foldl_append]
    unfold last_directive at ih ⊢
    rw [List.filterMap_append]
    cases hpc : parse_command c.note me with
    | none =>
      have hfm : List.filterMap
          (fun c => (parse_command c.note me).map (fun cmd => (c, cmd)))
          [c] = [] := by simp [hpc]
      rw [hfm, List.append_nil]
      simp only [List.foldl_cons, List.foldl_nil]
      rw [show parse_comments_step enc me
          (List.foldl (parse_comments_step enc me) ApprovalKind.NotApproved l)
          c = List.foldl (parse_comments_step enc me)
            ApprovalKind.NotApproved l by
        simp [parse_comments_step, hpc]]
      exact ih
    | some cmd =>
      have hfm : List.filterMap
          (fun c => (parse_command c.note me).map (fun cmd => (c, cmd)))
          [c] = [(c, cmd)] := by simp [hpc]
      rw [hfm]
      rw [List.getLast?_concat]
      simp only [List.foldl_cons, List.foldl_nil]
      cases cmd with
      | Approve p => simp [parse_comments_step, hpc]
      | CancelApprove => simp [parse_comments_step, hpc]

/-- Concrete project-level membership record (below Master). -/
def memberLow : Member := { id := 1, access_level := 30 }

/-- Concrete group-level membership record (at Master). -/
def memberHigh : Member := { id := 1, access_level := 40 }

/-- A concrete approving review comment. -/
def reviewComment : CommitNote :=
  { note := "@bot r+", author := { id := 1, username := "alice" },
    created_at := 0 }

/-- The bot's own user for concrete inputs. -/
def botUser : UserFull := { username := "bot" }

/-- C7 counterexample: the claim qualifies a reviewer as "a project or
parent-group member with access level ≥ master".  User 1 is such a member
(their group membership has level 40), yet `is_reviewer` inspects only the
first membership record found for the id (the project-level record, level
30), so the directive comment is filtered out and the derived kind stays
NotApproved while the claim's fold yields Approved. -/
theorem derive_approval_kind_counterexample :
    (∀ c ∈ [reviewComment], parse_command c.note botUser ≠ none →
      ∃ m ∈ [memberLow, memberHigh], m.id = c.author.id ∧
        40 ≤ m.access_level) ∧
    derive_approval_kind encApprovalUnit [memberLow, memberHigh]
      [reviewComment] botUser = ApprovalKind.NotApproved ∧
    parse_comments encApprovalUnit [reviewComment] botUser =
      ApprovalKind.new_approved encApprovalUnit
        { priority := 0, time := 0, username := "alice" } ∧
    derive_approval_kind encApprovalUnit [memberLow, memberHigh]
      [reviewComment] botUser ≠
      parse_comments encApprovalUnit [reviewComment] botUser := by
  refine ⟨?_, by decide, by decide, by decide⟩
  intro c hc hdir
  rw [List.mem_singleton] at hc
  subst hc
  exact ⟨memberHigh, by simp, rfl, by decide⟩

/-- C7 (amended): for every comment stream in service order in which every
directive-bearing comment is authored by a user that `is_reviewer` accepts
(the first membership record found for the author's id -- project members
before parent-group members -- has access level ≥ master), the derived
ApprovalKind equals the fold over the whole stream that starts at
NotApproved, replaces the accumulator on Approve(p) by Approved with
priority p, the comment's creation time and the author's login, and resets
it to NotApproved on CancelApprove -- so the last recognized directive
wins. -/
theorem derive_approval_kind_fold :
    ∀ (δ : Type) (enc : ApprovalInfo → δ) (members : List Member)
      (comments : List CommitNote) (me : UserFull),
      (∀ c ∈ comments, parse_command c.note me ≠ none →
        is_reviewer members c.author.id = true) →
      derive_approval_kind enc members comments me =
        parse_comments enc comments me ∧
      parse_comments enc comments me =
        (match last_directive comments me with
         | none => ApprovalKind.NotApproved
         | some (c, .Approve p) =>
           ApprovalKind.new_approved enc
             { priority := p, time := c.created_at,
               username := c.author.username }
         | some (_, .CancelApprove) => ApprovalKind.NotApproved) := by
  intro δ enc members comments me h
  exact ⟨parse_comments_filter_of_reviewer enc members me comments h,
    parse_comments_last_directive enc comments me⟩

/-- C7 witness: the amended fold theorem at a concrete stream (an approval
followed by a cancel, both by a Master-level reviewer), hypotheses
discharged by evaluation. -/
theorem derive_approval_kind_fold_witness :
    derive_approval_kind encApprovalUnit [memberHigh]
      [{ note := "@bot r+ p=2", author := { id := 1, username := "alice" },
         created_at := 5 },
       { note := "@bot r-", author := { id := 1, username := "alice" },
         created_at := 6 }] botUser =
      parse_comments encApprovalUnit
        [{ note := "@bot r+ p=2", author := { id := 1, username := "alice" },
           created_at := 5 },
         { note := "@bot r-", author := { id := 1, username := "alice" },
           created_at := 6 }] botUser :=
  (derive_approval_kind_fold Unit encApprovalUnit [memberHigh]
    [{ note := "@bot r+ p=2", author := { id := 1, username := "alice" },
       created_at := 5 },
     { note := "@bot r-", author := { id := 1, username := "alice" },
       created_at := 6 }] botUser (by decide)).1

/-! Merge-request controller and per-target scheduler (C4, C9, C10).

The controller (merge_request.rs `MergeRequest`) is modelled with the fields
its state logic reads, plus an oracle for the outcome of the external git /
HTTP effects of `push_merged` and `start_test`: each effectful operation
either fails (`err`, any `?` error inside the Rust function), takes its
documented "not pushed"/"conflict" path, or succeeds.  The serialized
description payload is `Unit` here (its content never influences control
flow). -/

/-- gitlab `MergeRequest`, restricted to the fields the controller logic
reads. -/
structure GitlabMR where
  id : Nat
  merge_status : MergeStatus
  source_project_id : Nat
  source_branch : String
  target_project_id : Nat
  target_branch : String
deriving DecidableEq, Repr

/-- Outcome of the external effects of `push_merged`: `err` = some call
returned `Err`; `notPushed` = one of the three retry paths (target sha
mismatch, merge sha mismatch, push rejected), all of which reset the test
kind to Pending and return `Ok(false)`; `pushed` = `Ok(true)`. -/
inductive PushOutcome where
  | err
  | notPushed
  | pushed
deriving DecidableEq, Repr

/-- Outcome of the external effects of `start_test`: `err` = some call
returned `Err`; `conflict` = local merge conflict, `Ok(false)`; `started` =
trial merge pushed and `Ok(true)`. -/
inductive StartOutcome where
  | err
  | conflict
  | started
deriving DecidableEq, Repr

/-- The merge-request controller state (merge_request.rs `MergeRequest`),
with outcome oracles for its two effectful operations and the `TestInfo`
that `start_test` would construct from the git results. -/
structure MR where
  gm : GitlabMR
  approval_kind : ApprovalKind Unit
  test_kind : TestKind Unit
  merged : Bool
  state : MRState
  pushOutcome : PushOutcome
  startOutcome : StartOutcome
  trialInfo : TestInfo
deriving DecidableEq, Repr

/-- `MergeRequest::next_state` applied to a controller value. -/
def MR.nextState (mr : MR) : MRState :=
  next_state mr.gm.merge_status mr.approval_kind mr.test_kind mr.merged

/-- `MergeRequest::trans_state` (merge_request.rs lines 500-514): store the
recomputed composite state (the source logs but always returns `Ok`). -/
def MR.trans_state (mr : MR) : MR :=
  { mr with state := mr.nextState }

/-- `MergeRequest::update_target_branch` (merge_request.rs lines 167-192).
The second component is the list of commit-status states the call writes to
the remote service: the source performs no `create_commit_status` call here
(it only calls `update_kind` and `trans_state`), so it is always empty. -/
def MR.update_target_branch (mr : MR) (target_sha : String) :
    MR × List StatusState :=
  match mr.test_kind.info with
  | none => (mr, [])
  | some info =>
    if info.target_sha ≠ target_sha then
      (MR.trans_state { mr with test_kind := .Pending }, [])
    else
      (mr, [])

/-- `MergeRequest::push_merged` (merge_request.rs lines 279-344), with the
external effects resolved by the oracle.  `none` models `Err`. -/
def MR.push_merged (mr : MR) : Option (MR × Bool) :=
  match mr.pushOutcome with
  | .err => none
  | .notPushed => some (MR.trans_state { mr with test_kind := .Pending }, false)
  | .pushed => some (MR.trans_state { mr with merged := true }, true)

/-- `MergeRequest::start_test` (merge_request.rs lines 194-277), with the
external effects resolved by the oracle. -/
def MR.start_test (mr : MR) : Option (MR × Bool) :=
  match mr.startOutcome with
  | .err => none
  | .conflict =>
    some (MR.trans_state { mr with test_kind := .Failed none }, false)
  | .started =>
    some (MR.trans_state
      { mr with test_kind := TestKind.new_running encUnit mr.trialInfo }, true)

/-- `MergeRequest::update_approval_status` (merge_request.rs lines 374-400):
`fetched` is the result of fetching and folding the reviewer comments
(`none` = the HTTP call failed). -/
def MR.update_approval_status (mr : MR)
    (fetched : Option (ApprovalKind Unit)) : Option MR :=
  match fetched with
  | none => none
  | some next =>
    if next ≠ mr.approval_kind then
      some (MR.trans_state { mr with approval_kind := next })
    else
      some mr

/-- `MergeRequest::update_test_status` (merge_request.rs lines 402-456):
`fetched` is the result of fetching the latest builds of the trial commit
(`none` = the HTTP call failed). -/
def MR.update_test_status (mr : MR) (fetched : Option (List StatusState)) :
    Option MR :=
  match mr.test_kind.info with
  | none => some mr
  | some info =>
    match fetched with
    | none => none
    | some builds =>
      if info.source_project_id ≠ mr.gm.source_project_id ∨
          info.source_branch ≠ mr.gm.source_branch ∨
          info.target_project_id ≠ mr.gm.target_project_id ∨
          info.target_branch ≠ mr.gm.target_branch then
        some (MR.trans_state { mr with test_kind := .Pending })
      else
        let next := update_test_kind encUnit info builds
        if next ≠ mr.test_kind then
          some (MR.trans_state { mr with test_kind := next })
        else
          some mr

/-- The externally-determined inputs of controller construction: whether the
pipeline-status fetch succeeded, the two track kinds reconstructed from the
remote records (or initialized fresh), the result of the comment fetch/fold,
the result of the build fetch, and whether the final status sync
succeeded. -/
structure LoadInputs where
  pipelineOk : Bool
  approval0 : ApprovalKind Unit
  test0 : TestKind Unit
  commentsKind : Option (ApprovalKind Unit)
  builds : Option (List StatusState)
  syncOk : Bool
deriving DecidableEq, Repr

/-- The `while result.is_ok()` refresh block of
`MergeRequest::from_gitlab_mr` (merge_request.rs lines 119-148), run after
`obj.state = obj.next_state()`: refresh the approval track, refresh the test
track, sync both; the first failure forces the composite state to
`Errored`. -/
def load_refresh (obj : MR) (commentsKind : Option (ApprovalKind Unit))
    (builds : Option (List StatusState)) (syncOk : Bool) : MR :=
  match obj.update_approval_status commentsKind with
  | none => { obj with state := .Errored }
  | some obj2 =>
    match obj2.update_test_status builds with
    | none => { obj2 with state := .Errored }
    | some obj3 => if syncOk then obj3 else { obj3 with state := .Errored }

/-- `MergeRequest::from_gitlab_mr` (merge_request.rs lines 81-153):
construct the controller, derive the state, refresh both tracks, sync; any
failure forces the composite state to `Errored`. -/
def from_gitlab_mr (gm : GitlabMR) (inp : LoadInputs) (po : PushOutcome)
    (so : StartOutcome) (ti : TestInfo) : MR :=
  let base : MR :=
    { gm := gm, approval_kind := inp.approval0, test_kind := inp.test0,
      merged := false, state := .Init, pushOutcome := po, startOutcome := so,
      trialInfo := ti }
  if inp.pipelineOk = false then
    { base with state := .Errored }
  else
    load_refresh base.trans_state inp.commentsKind inp.builds inp.syncOk

/-- main.rs `Queue` (lines 144-180): the per-target-branch buckets.  The
three `BinaryHeap<SortBy<ApprovalInfo, MergeRequest>>` heaps are modelled as
lists of (key, controller) pairs popped with `popMax`. -/
structure Queue where
  target_sha : String
  errored : List MR
  init : List MR
  approved : List (ApprovalInfo × MR)
  running : List (ApprovalInfo × MR)
  success : List (ApprovalInfo × MR)
  merged : List MR
  failed : List (Option ApprovalInfo × MR)
deriving DecidableEq, Repr

/-- main.rs `Queue::push` (lines 169-179): route a controller to the bucket
named by its composite state. -/
def Queue.push (q : Queue) (mr : MR) : Queue :=
  match mr.state with
  | .Init => { q with init := q.init ++ [mr] }
  | .Approved a => { q with approved := q.approved ++ [(a, mr)] }
  | .Running a => { q with running := q.running ++ [(a, mr)] }
  | .Success a => { q with success := q.success ++ [(a, mr)] }
  | .Merged _ => { q with merged := q.merged ++ [mr] }
  | .Failed a => { q with failed := q.failed ++ [(a, mr)] }
  | .Errored => { q with errored := q.errored ++ [mr] }

/-- Observable scheduler events of one tick: a `push_merged` attempt on a
popped Success candidate, the do-nothing re-push of a Running candidate, or
a `start_test` attempt on a popped Approved candidate.  Each event carries
the controller as it was popped. -/
inductive Event where
  | pushAttempt (mr : MR)
  | runningBlock (mr : MR)
  | startAttempt (mr : MR)
deriving DecidableEq, Repr

/-! Shape lemmas about `next_state` and the operations, used for loop
termination and the scheduler theorems. -/

theorem next_state_pending_shape {δ : Type} (ms : MergeStatus)
    (ak : ApprovalKind δ) (m : Bool) :
    next_state ms ak .Pending m = .Init ∨
    (∃ a, next_state ms ak .Pending m = .Approved a) ∨
    (∃ oa, next_state ms ak .Pending m = .Failed oa) := by
  cases ms <;> cases ak <;>
    simp [next_state, ApprovalKind.info]

theorem next_state_failed_shape {δ : Type} (ms : MergeStatus)
    (ak : ApprovalKind δ) (p : Option (δ × TestInfo)) (m : Bool) :
    next_state ms ak (.Failed p) m = .Init ∨
    (∃ oa, next_state ms ak (.Failed p) m = .Failed oa) := by
  cases ms <;> cases ak <;>
    simp [next_state, ApprovalKind.info]

theorem next_state_running_shape {δ : Type} (ms : MergeStatus)
    (ak : ApprovalKind δ) (d : δ) (i : TestInfo) (m : Bool) :
    next_state ms ak (.Running d i) m = .Init ∨
    (∃ a, next_state ms ak (.Running d i) m = .Running a) ∨
    (∃ oa, next_state ms ak (.Running d i) m = .Failed oa) := by
  cases ms <;> cases ak <;>
    simp [next_state, ApprovalKind.info]

theorem next_state_success_true_shape {δ : Type} (ms : MergeStatus)
    (ak : ApprovalKind δ) (d : δ) (i : TestInfo) :
    next_state ms ak (.Success d i) true = .Init ∨
    (∃ a, next_state ms ak (.Success d i) true = .Merged a) ∨
    (∃ oa, next_state ms ak (.Success d i) true = .Failed oa) := by
  cases ms <;> cases ak <;>
    simp [next_state, ApprovalKind.info]

/-- Inversions of `next_state`: which track configurations can produce each
composite state. -/
theorem next_state_eq_approved {δ : Type} {ms : MergeStatus}
    {ak : ApprovalKind δ} {tk : TestKind δ} {m : Bool} {a : ApprovalInfo}
    (h : next_state ms ak tk m = .Approved a) :
    tk = .Pending ∧ ak.info = some a ∧ ms ≠ .CannotBeMerged := by
  cases ms <;> cases ak <;> cases tk <;>
    simp_all [next_state, ApprovalKind.info] <;>
    cases m <;> simp_all

theorem next_state_eq_success {δ : Type} {ms : MergeStatus}
    {ak : ApprovalKind δ} {tk : TestKind δ} {m : Bool} {a : ApprovalInfo}
    (h : next_state ms ak tk m = .Success a) :
    (∃ d i, tk = .Success d i) ∧ ak.info = some a ∧ m = false ∧
      ms ≠ .CannotBeMerged := by
  cases ms <;> cases ak <;> cases tk <;>
    simp_all [next_state, ApprovalKind.info] <;>
    cases m <;> simp_all

/-- The composite-state invariant: the stored state is the recomputation
`next_state()` would produce from the current fields. -/
def StateInv (mr : MR) : Prop := mr.state = mr.nextState

theorem trans_state_StateInv (mr : MR) : StateInv mr.trans_state := rfl

theorem push_merged_some {mr mr2 : MR} {b : Bool}
    (h : mr.push_merged = some (mr2, b)) : StateInv mr2 := by
  cases hp : mr.pushOutcome <;> simp [MR.push_merged, hp] at h <;>
    rw [← h.1] <;> exact trans_state_StateInv _

theorem start_test_some {mr mr2 : MR} {b : Bool}
    (h : mr.start_test = some (mr2, b)) : StateInv mr2 := by
  cases hp : mr.startOutcome <;> simp [MR.start_test, hp] at h <;>
    rw [← h.1] <;> exact trans_state_StateInv _

theorem push_merged_false {mr mr2 : MR}
    (h : mr.push_merged = some (mr2, false)) :
    mr2 = MR.trans_state { mr with test_kind := .Pending } := by
  cases hp : mr.pushOutcome <;> simp [MR.push_merged, hp] at h
  exact h.symm

theorem push_merged_true {mr mr2 : MR}
    (h : mr.push_merged = some (mr2, true)) :
    mr2 = MR.trans_state { mr with merged := true } ∧
      mr.pushOutcome = .pushed := by
  cases hp : mr.pushOutcome <;> simp [MR.push_merged, hp] at h
  exact ⟨h.symm, rfl⟩

theorem push_merged_err {mr : MR} (h : mr.push_merged = none) :
    mr.pushOutcome = .err := by
  cases hp : mr.pushOutcome <;> simp [MR.push_merged, hp] at h
  rfl

theorem start_test_false {mr mr2 : MR}
    (h : mr.start_test = some (mr2, false)) :
    mr2 = MR.trans_state { mr with test_kind := .Failed none } := by
  cases hp : mr.startOutcome <;> simp [MR.start_test, hp] at h
  exact h.symm

theorem start_test_true {mr mr2 : MR}
    (h : mr.start_test = some (mr2, true)) :
    mr2 = MR.trans_state
        { mr with test_kind := TestKind.new_running encUnit mr.trialInfo } ∧
      mr.startOutcome = .started := by
  cases hp : mr.startOutcome <;> simp [MR.start_test, hp] at h
  exact ⟨h.symm, rfl⟩

/-- `Queue::push` touches only the bucket named by the state. -/
theorem Queue.push_success_of_ne (q : Queue) (mr : MR)
    (h : ∀ a, mr.state ≠ .Success a) : (q.push mr).success = q.success := by
  cases hs : mr.state <;> simp [Queue.push, hs]
  exact absurd hs (h _)

theorem Queue.push_approved_of_ne (q : Queue) (mr : MR)
    (h : ∀ a, mr.state ≠ .Approved a) : (q.push mr).approved = q.approved := by
  cases hs : mr.state <;> simp [Queue.push, hs]
  exact absurd hs (h _)

theorem Queue.push_running_merged_length (q : Queue) (mr : MR) :
    (q.push mr).running.length + (q.push mr).merged.length ≤
      q.running.length + q.merged.length + 1 := by
  cases hs : mr.state <;> simp [Queue.push, hs] <;> omega

theorem Queue.push_running_merged_of_ne (q : Queue) (mr : MR)
    (hr : ∀ a, mr.state ≠ .Running a) (hm : ∀ a, mr.state ≠ .Merged a) :
    (q.push mr).running = q.running ∧ (q.push mr).merged = q.merged := by
  cases hs : mr.state <;> simp [Queue.push, hs]
  · exact absurd hs (hr _)
  · exact absurd hs (hm _)

theorem trans_pending_state_shape (mr : MR) :
    (MR.trans_state { mr with test_kind := .Pending }).state = .Init ∨
    (∃ a, (MR.trans_state { mr with test_kind := .Pending }).state =
      .Approved a) ∨
    (∃ oa, (MR.trans_state { mr with test_kind := .Pending }).state =
      .Failed oa) := by
  simpa [MR.trans_state, MR.nextState] using
    next_state_pending_shape mr.gm.merge_status mr.approval_kind mr.merged

theorem trans_failed_state_shape (mr : MR) :
    (MR.trans_state { mr with test_kind := .Failed none }).state = .Init ∨
    (∃ oa, (MR.trans_state { mr with test_kind := .Failed none }).state =
      .Failed oa) := by
  simpa [MR.trans_state, MR.nextState] using
    next_state_failed_shape mr.gm.merge_status mr.approval_kind none mr.merged

theorem trans_pending_not_success (mr : MR) (a : ApprovalInfo) :
    (MR.trans_state { mr with test_kind := .Pending }).state ≠ .Success a := by
  intro hcontra
  rcases trans_pending_state_shape mr with hs | ⟨b, hs⟩ | ⟨ob, hs⟩ <;>
    rw [hs] at hcontra <;> simp at hcontra

theorem trans_failed_not_approved (mr : MR) (a : ApprovalInfo) :
    (MR.trans_state { mr with test_kind := .Failed none }).state ≠
      .Approved a := by
  intro hcontra
  rcases trans_failed_state_shape mr with hs | ⟨ob, hs⟩ <;>
    rw [hs] at hcontra <;> simp at hcontra

/-- main.rs `run_repo_target`, first phase (lines 192-211): pop Success
candidates, attempt `push_merged` on each; errors go to `errored`, re-push
the controller otherwise; stop the tick after a successful push.  Returns
the queue, whether the tick ended here, and the emitted events. -/
def run_success_loop (q : Queue) : Queue × Bool × List Event :=
  match h : popMax q.success with
  | none => (q, false, [])
  | some (p, rest) =>
    let q1 : Queue := { q with success := rest }
    match hp : MR.push_merged p.2 with
    | none =>
      let r := run_success_loop { q1 with errored := q1.errored ++ [p.2] }
      (r.1, r.2.1, Event.pushAttempt p.2 :: r.2.2)
    | some (mr2, true) => (q1.push mr2, true, [Event.pushAttempt p.2])
    | some (mr2, false) =>
      let r := run_success_loop (q1.push mr2)
      (r.1, r.2.1, Event.pushAttempt p.2 :: r.2.2)
termination_by q.success.length
decreasing_by
  · have hl := popMax_length h
    simp
    omega
  · have hl := popMax_length h
    have hm2 := push_merged_false hp
    subst hm2
    rw [show (Queue.push { q with success := rest }
        (MR.trans_state { p.2 with test_kind := .Pending })).success = rest
      from Queue.push_success_of_ne _ _ (trans_pending_not_success p.2)]
    omega

/-- main.rs `run_repo_target`, second phase (lines 213-221): if a Running
candidate exists, pop it, re-push it unchanged and end the tick. -/
def run_running_step (q : Queue) : Option (Queue × Event) :=
  match popMax q.running with
  | none => none
  | some (p, rest) =>
    some (Queue.push { q with running := rest } p.2, Event.runningBlock p.2)

/-- main.rs `run_repo_target`, third phase (lines 223-242): pop Approved
candidates, attempt `start_test` on each; errors go to `errored`, re-push
the controller otherwise; stop the tick after a started test. -/
def run_approved_loop (q : Queue) : Queue × Bool × List Event :=
  match h : popMax q.approved with
  | none => (q, false, [])
  | some (p, rest) =>
    let q1 : Queue := { q with approved := rest }
    match hp : MR.start_test p.2 with
    | none =>
      let r := run_approved_loop { q1 with errored := q1.errored ++ [p.2] }
      (r.1, r.2.1, Event.startAttempt p.2 :: r.2.2)
    | some (mr2, true) => (q1.push mr2, true, [Event.startAttempt p.2])
    | some (mr2, false) =>
      let r := run_approved_loop (q1.push mr2)
      (r.1, r.2.1, Event.startAttempt p.2 :: r.2.2)
termination_by q.approved.length
decreasing_by
  · have hl := popMax_length h
    simp
    omega
  · have hl := popMax_length h
    have hm2 := start_test_false hp
    subst hm2
    rw [show (Queue.push { q with approved := rest }
        (MR.trans_state { p.2 with test_kind := .Failed none })).approved = rest
      from Queue.push_approved_of_ne _ _ (trans_failed_not_approved p.2)]
    omega

/-- main.rs `run_repo_target` (lines 182-245): one scheduler tick for one
target branch. -/
def run_repo_target (q : Queue) : Queue × List Event :=
  let r := run_success_loop q
  if r.2.1 then (r.1, r.2.2)
  else
    match run_running_step r.1 with
    | some (q2, e) => (q2, r.2.2 ++ [e])
    | none =>
      let r2 := run_approved_loop r.1
      (r2.1, r.2.2 ++ r2.2.2)

/-- Well-formedness of a queue: every heap element satisfies the composite
state invariant and sits in the bucket named by its state, keyed by the
approval info of that state (which is how `Queue::push` files it). -/
def QueueWF (q : Queue) : Prop :=
  (∀ p ∈ q.approved, StateInv p.2 ∧ p.2.state = .Approved p.1) ∧
  (∀ p ∈ q.running, StateInv p.2 ∧ p.2.state = .Running p.1) ∧
  (∀ p ∈ q.success, StateInv p.2 ∧ p.2.state = .Success p.1)

theorem Queue.push_WF (q : Queue) (mr : MR) (hq : QueueWF q)
    (hmr : StateInv mr) : QueueWF (q.push mr) := by
  obtain ⟨ha, hr, hs⟩ := hq
  cases hst : mr.state with
  | Init => simp only [Queue.push, hst]; exact ⟨ha, hr, hs⟩
  | Merged a => simp only [Queue.push, hst]; exact ⟨ha, hr, hs⟩
  | Failed a => simp only [Queue.push, hst]; exact ⟨ha, hr, hs⟩
  | Errored => simp only [Queue.push, hst]; exact ⟨ha, hr, hs⟩
  | Approved a =>
    simp only [Queue.push, hst]
    refine ⟨?_, hr, hs⟩
    intro p hp
    rcases List.mem_append.mp hp with hp | hp
    · exact ha p hp
    · rw [List.mem_singleton] at hp
      subst hp
      exact ⟨hmr, hst⟩
  | Running a =>
    simp only [Queue.push, hst]
    refine ⟨ha, ?_, hs⟩
    intro p hp
    rcases List.mem_append.mp hp with hp | hp
    · exact hr p hp
    · rw [List.mem_singleton] at hp
      subst hp
      exact ⟨hmr, hst⟩
  | Success a =>
    simp only [Queue.push, hst]
    refine ⟨ha, hr, ?_⟩
    intro p hp
    rcases List.mem_append.mp hp with hp | hp
    · exact hs p hp
    · rw [List.mem_singleton] at hp
      subst hp
      exact ⟨hmr, hst⟩

theorem trans_pending_not_running (mr : MR) (a : ApprovalInfo) :
    (MR.trans_state { mr with test_kind := .Pending }).state ≠ .Running a := by
  intro hcontra
  rcases trans_pending_state_shape mr with hs | ⟨b, hs⟩ | ⟨ob, hs⟩ <;>
    rw [hs] at hcontra <;> simp at hcontra

theorem trans_pending_not_merged (mr : MR) (a : ApprovalInfo) :
    (MR.trans_state { mr with test_kind := .Pending }).state ≠ .Merged a := by
  intro hcontra
  rcases trans_pending_state_shape mr with hs | ⟨b, hs⟩ | ⟨ob, hs⟩ <;>
    rw [hs] at hcontra <;> simp at hcontra

theorem trans_failed_not_running (mr : MR) (a : ApprovalInfo) :
    (MR.trans_state { mr with test_kind := .Failed none }).state ≠
      .Running a := by
  intro hcontra
  rcases trans_failed_state_shape mr with hs | ⟨ob, hs⟩ <;>
    rw [hs] at hcontra <;> simp at hcontra

theorem trans_failed_not_merged (mr : MR) (a : ApprovalInfo) :
    (MR.trans_state { mr with test_kind := .Failed none }).state ≠
      .Merged a := by
  intro hcontra
  rcases trans_failed_state_shape mr with hs | ⟨ob, hs⟩ <;>
    rw [hs] at hcontra <;> simp at hcontra

theorem push_merged_false_outcome {mr mr2 : MR}
    (h : mr.push_merged = some (mr2, false)) :
    mr.pushOutcome = .notPushed := by
  cases hp : mr.pushOutcome <;> simp [MR.push_merged, hp] at h
  rfl

theorem start_test_false_outcome {mr mr2 : MR}
    (h : mr.start_test = some (mr2, false)) :
    mr.startOutcome = .conflict := by
  cases hp : mr.startOutcome <;> simp [MR.start_test, hp] at h
  rfl

theorem start_test_err {mr : MR} (h : mr.start_test = none) :
    mr.startOutcome = .err := by
  cases hp : mr.startOutcome <;> simp [MR.start_test, hp] at h
  rfl

theorem QueueWF_restrict (q : Queue) (E : List MR)
    (rest : List (ApprovalInfo × MR)) (hq : QueueWF q)
    (hsub : ∀ y ∈ rest, y ∈ q.success) :
    QueueWF { q with errored := E, success := rest } := by
  obtain ⟨ha, hr, hs⟩ := hq
  exact ⟨ha, hr, fun p hp => hs p (hsub p hp)⟩

theorem QueueWF_restrict_approved (q : Queue) (E : List MR)
    (rest : List (ApprovalInfo × MR)) (hq : QueueWF q)
    (hsub : ∀ y ∈ rest, y ∈ q.approved) :
    QueueWF { q with errored := E, approved := rest } := by
  obtain ⟨ha, hr, hs⟩ := hq
  exact ⟨fun p hp => ha p (hsub p hp), hr, hs⟩

theorem run_success_loop_none {q : Queue} (h : popMax q.success = none) :
    run_success_loop q = (q, false, []) := by
  rw [run_success_loop.eq_def]
  split
  · rfl
  · rename_i p rest heq
    rw [h] at heq
    simp at heq

theorem run_success_loop_step_err {q : Queue} {p : ApprovalInfo × MR}
    {rest : List (ApprovalInfo × MR)}
    (h : popMax q.success = some (p, rest)) (hp : p.2.push_merged = none) :
    run_success_loop q =
      ((run_success_loop
          { q with errored := q.errored ++ [p.2], success := rest }).1,
       (run_success_loop
          { q with errored := q.errored ++ [p.2], success := rest }).2.1,
       Event.pushAttempt p.2 ::
         (run_success_loop
            { q with errored := q.errored ++ [p.2], success := rest }).2.2) := by
  rw [run_success_loop.eq_def]
  split
  · rename_i heq
    rw [heq] at h
    simp at h
  · rename_i p' rest' heq
    rw [h] at heq
    have hpq : p = p' ∧ rest = rest' := by simpa using heq
    obtain ⟨hp1, hp2⟩ := hpq
    subst hp1
    subst hp2
    split
    · rfl
    · rename_i mr2 heq2
      rw [hp] at heq2
      simp at heq2
    · rename_i mr2 heq2
      rw [hp] at heq2
      simp at heq2

theorem run_success_loop_step_pushed {q : Queue} {p : ApprovalInfo × MR}
    {rest : List (ApprovalInfo × MR)} {mr2 : MR}
    (h : popMax q.success = some (p, rest))
    (hp : p.2.push_merged = some (mr2, true)) :
    run_success_loop q =
      (Queue.push { q with success := rest } mr2, true,
        [Event.pushAttempt p.2]) := by
  rw [run_success_loop.eq_def]
  split
  · rename_i heq
    rw [heq] at h
    simp at h
  · rename_i p' rest' heq
    rw [h] at heq
    have hpq : p = p' ∧ rest = rest' := by simpa using heq
    obtain ⟨hp1, hp2⟩ := hpq
    subst hp1
    subst hp2
    split
    · rename_i heq2
      rw [hp] at heq2
      simp at heq2
    · rename_i mr2b heq2
      rw [hp] at heq2
      have : mr2 = mr2b := by simpa using heq2
      subst this
      rfl
    · rename_i mr2b heq2
      rw [hp] at heq2
      simp at heq2

theorem run_success_loop_step_notpushed {q : Queue} {p : ApprovalInfo × MR}
    {rest : List (ApprovalInfo × MR)} {mr2 : MR}
    (h : popMax q.success = some (p, rest))
    (hp : p.2.push_merged = some (mr2, false)) :
    run_success_loop q =
      ((run_success_loop (Queue.push { q with success := rest } mr2)).1,
       (run_success_loop (Queue.push { q with success := rest } mr2)).2.1,
       Event.pushAttempt p.2 ::
         (run_success_loop (Queue.push { q with success := rest } mr2)).2.2) := by
  rw [run_success_loop.eq_def]
  split
  · rename_i heq
    rw [heq] at h
    simp at h
  · rename_i p' rest' heq
    rw [h] at heq
    have hpq : p = p' ∧ rest = rest' := by simpa using heq
    obtain ⟨hp1, hp2⟩ := hpq
    subst hp1
    subst hp2
    split
    · rename_i heq2
      rw [hp] at heq2
      simp at heq2
    · rename_i mr2b heq2
      rw [hp] at heq2
      simp at heq2
    · rename_i mr2b heq2
      rw [hp] at heq2
      have : mr2 = mr2b := by simpa using heq2
      subst this
      rfl

/-- Behavior of the success phase of a tick: if it did not end the tick, the
running and merged buckets are untouched, the success heap has been fully
drained, and one push was attempted per Success candidate, none of which
succeeded; if it ended the tick, at most one element entered running/merged;
all events are push attempts on elements of the initial success heap; the
phase stops immediately after a successful push; and queue well-formedness
is preserved. -/
def SuccessLoopSpec (q : Queue) (r : Queue × Bool × List Event) : Prop :=
  (r.2.1 = false → r.1.running = q.running ∧ r.1.merged = q.merged ∧
    r.1.success = [] ∧ r.2.2.length = q.success.length) ∧
  (r.2.1 = true → r.1.running.length + r.1.merged.length ≤
    q.running.length + q.merged.length + 1) ∧
  (∀ e ∈ r.2.2, ∃ p ∈ q.success, e = Event.pushAttempt p.2) ∧
  (r.2.1 = false →
    ∀ mr, Event.pushAttempt mr ∈ r.2.2 → mr.pushOutcome ≠ .pushed) ∧
  (∀ pre mr post, r.2.2 = pre ++ Event.pushAttempt mr :: post →
    mr.pushOutcome = .pushed → post = []) ∧
  (QueueWF q → QueueWF r.1)

theorem run_success_loop_spec (q : Queue) :
    SuccessLoopSpec q (run_success_loop q) := by
  induction q using run_success_loop.induct with
  | case1 q h =>
    rw [run_success_loop_none h]
    have hnil : q.success = [] := (popMax_eq_none_iff q.success).mp h
    refine ⟨?_, ?_, ?_, ?_, ?_, ?_⟩
    · intro _
      exact ⟨rfl, rfl, hnil, by simp [hnil]⟩
    · intro hcontra
      simp at hcontra
    · intro e he
      simp at he
    · intro _ mr hmr
      simp at hmr
    · intro pre mr post hdec
      cases pre <;> simp at hdec
    · exact id
  | case2 q p rest h q1 hp ih =>
    have E := run_success_loop_step_err h hp
    set q2 : Queue := { q with errored := q.errored ++ [p.2], success := rest }
      with hq2
    have E1 : (run_success_loop q).1 = (run_success_loop q2).1 := by rw [E]
    have E2 : (run_success_loop q).2.1 = (run_success_loop q2).2.1 := by
      rw [E]
    have E3 : (run_success_loop q).2.2 =
        Event.pushAttempt p.2 :: (run_success_loop q2).2.2 := by rw [E]
    obtain ⟨ihf, iht, ihe, ihnp, ihstop, ihwf⟩ := ih
    have hq2run : q2.running = q.running := rfl
    have hq2mer : q2.merged = q.merged := rfl
    have hq2suc : q2.success = rest := rfl
    refine ⟨?_, ?_, ?_, ?_, ?_, ?_⟩
    · intro hfalse
      rw [E2] at hfalse
      obtain ⟨h1, h2, h3, h4⟩ := ihf hfalse
      rw [E1, E3]
      refine ⟨h1, h2, h3, ?_⟩
      simp only [List.length_cons, h4, hq2suc]
      have := popMax_length h
      omega
    · intro htrue
      rw [E2] at htrue
      rw [E1]
      have := iht htrue
      rw [hq2run, hq2mer] at this
      omega
    · intro e he
      rw [E3] at he
      rcases List.mem_cons.mp he with he | he
      · exact ⟨p, popMax_mem h, he⟩
      · obtain ⟨p', hp', he'⟩ := ihe e he
        rw [hq2suc] at hp'
        exact ⟨p', popMax_rest_subset h p' hp', he'⟩
    · intro hfalse mr hmr
      rw [E2] at hfalse
      rw [E3] at hmr
      rcases List.mem_cons.mp hmr with hmr | hmr
      · have hme : mr = p.2 := Event.pushAttempt.inj hmr
        subst hme
        rw [push_merged_err hp]
        simp
      · exact ihnp hfalse mr hmr
    · intro pre mr post hdec hpush
      rw [E3] at hdec
      cases pre with
      | nil =>
        simp at hdec
        obtain ⟨h1, h2⟩ := hdec
        subst h1
        rw [push_merged_err hp] at hpush
        simp at hpush
      | cons e' pre' =>
        simp at hdec
        exact ihstop pre' mr post hdec.2 hpush
    · intro hwf
      rw [E1]
      exact ihwf (QueueWF_restrict q _ rest hwf (popMax_rest_subset h))
  | case3 q p rest h mr2 hp =>
    have E := run_success_loop_step_pushed h hp
    have E1 : (run_success_loop q).1 =
        Queue.push { q with success := rest } mr2 := by rw [E]
    have E2 : (run_success_loop q).2.1 = true := by rw [E]
    have E3 : (run_success_loop q).2.2 = [Event.pushAttempt p.2] := by rw [E]
    refine ⟨?_, ?_, ?_, ?_, ?_, ?_⟩
    · intro hcontra
      rw [E2] at hcontra
      simp at hcontra
    · intro _
      rw [E1]
      have hb := Queue.push_running_merged_length { q with success := rest } mr2
      have hbr : ({ q with success := rest } : Queue).running = q.running := rfl
      have hbm : ({ q with success := rest } : Queue).merged = q.merged := rfl
      rw [hbr, hbm] at hb
      omega
    · intro e he
      rw [E3] at he
      rw [List.mem_singleton] at he
      exact ⟨p, popMax_mem h, he⟩
    · intro hcontra
      rw [E2] at hcontra
      simp at hcontra
    · intro pre mr post hdec hpush
      rw [E3] at hdec
      have hlen := congrArg List.length hdec
      simp [List.length_append] at hlen
      have : post.length = 0 := by omega
      exact List.length_eq_zero.mp this
    · intro hwf
      rw [E1]
      exact Queue.push_WF _ _
        (QueueWF_restrict q q.errored rest hwf (popMax_rest_subset h))
        (push_merged_some hp)
  | case4 q p rest h q1 mr2 hp ih =>
    have E := run_success_loop_step_notpushed h hp
    set q2 : Queue := Queue.push { q with success := rest } mr2 with hq2
    have E1 : (run_success_loop q).1 = (run_success_loop q2).1 := by rw [E]
    have E2 : (run_success_loop q).2.1 = (run_success_loop q2).2.1 := by
      rw [E]
    have E3 : (run_success_loop q).2.2 =
        Event.pushAttempt p.2 :: (run_success_loop q2).2.2 := by rw [E]
    obtain ⟨ihf, iht, ihe, ihnp, ihstop, ihwf⟩ := ih
    have hm2 : mr2 = MR.trans_state { p.2 with test_kind := .Pending } :=
      push_merged_false hp
    have hq2run : q2.running = q.running := by
      rw [hq2]
      exact (Queue.push_running_merged_of_ne _ _
        (fun a => hm2 ▸ trans_pending_not_running p.2 a)
        (fun a => hm2 ▸ trans_pending_not_merged p.2 a)).1
    have hq2mer : q2.merged = q.merged := by
      rw [hq2]
      exact (Queue.push_running_merged_of_ne _ _
        (fun a => hm2 ▸ trans_pending_not_running p.2 a)
        (fun a => hm2 ▸ trans_pending_not_merged p.2 a)).2
    have hq2suc : q2.success = rest := by
      rw [hq2]
      exact Queue.push_success_of_ne _ _
        (fun a => hm2 ▸ trans_pending_not_success p.2 a)
    refine ⟨?_, ?_, ?_, ?_, ?_, ?_⟩
    · intro hfalse
      rw [E2] at hfalse
      obtain ⟨h1, h2, h3, h4⟩ := ihf hfalse
      rw [E1, E3]
      refine ⟨by rw [h1, hq2run], by rw [h2, hq2mer], h3, ?_⟩
      simp only [List.length_cons, h4, hq2suc]
      have := popMax_length h
      omega
    · intro htrue
      rw [E2] at htrue
      rw [E1]
      have := iht htrue
      rw [hq2run, hq2mer] at this
      omega
    · intro e he
      rw [E3] at he
      rcases List.mem_cons.mp he with he | he
      · exact ⟨p, popMax_mem h, he⟩
      · obtain ⟨p', hp', he'⟩ := ihe e he
        rw [hq2suc] at hp'
        exact ⟨p', popMax_rest_subset h p' hp', he'⟩
    · intro hfalse mr hmr
      rw [E2] at hfalse
      rw [E3] at hmr
      rcases List.mem_cons.mp hmr with hmr | hmr
      · have hme : mr = p.2 := Event.pushAttempt.inj hmr
        subst hme
        rw [push_merged_false_outcome hp]
        simp
      · exact ihnp hfalse mr hmr
    · intro pre mr post hdec hpush
      rw [E3] at hdec
      cases pre with
      | nil =>
        simp at hdec
        obtain ⟨h1, h2⟩ := hdec
        subst h1
        rw [push_merged_false_outcome hp] at hpush
        simp at hpush
      | cons e' pre' =>
        simp at hdec
        exact ihstop pre' mr post hdec.2 hpush
    · intro hwf
      rw [E1]
      refine ihwf ?_
      rw [hq2]
      exact Queue.push_WF _ _
        (QueueWF_restrict q q.errored rest hwf (popMax_rest_subset h))
        (push_merged_some hp)

theorem run_approved_loop_none {q : Queue} (h : popMax q.approved = none) :
    run_approved_loop q = (q, false, []) := by
  rw [run_approved_loop.eq_def]
  split
  · rfl
  · rename_i p rest heq
    rw [h] at heq
    simp at heq

theorem run_approved_loop_step_err {q : Queue} {p : ApprovalInfo × MR}
    {rest : List (ApprovalInfo × MR)}
    (h : popMax q.approved = some (p, rest)) (hp : p.2.start_test = none) :
    run_approved_loop q =
      ((run_approved_loop
          { q with errored := q.errored ++ [p.2], approved := rest }).1,
       (run_approved_loop
          { q with errored := q.errored ++ [p.2], approved := rest }).2.1,
       Event.startAttempt p.2 ::
         (run_approved_loop
            { q with errored := q.errored ++ [p.2], approved := rest }).2.2) := by
  rw [run_approved_loop.eq_def]
  split
  · rename_i heq
    rw [heq] at h
    simp at h
  · rename_i p' rest' heq
    rw [h] at heq
    have hpq : p = p' ∧ rest = rest' := by simpa using heq
    obtain ⟨hp1, hp2⟩ := hpq
    subst hp1
    subst hp2
    split
    · rfl
    · rename_i mr2 heq2
      rw [hp] at heq2
      simp at heq2
    · rename_i mr2 heq2
      rw [hp] at heq2
      simp at heq2

theorem run_approved_loop_step_started {q : Queue} {p : ApprovalInfo × MR}
    {rest : List (ApprovalInfo × MR)} {mr2 : MR}
    (h : popMax q.approved = some (p, rest))
    (hp : p.2.start_test = some (mr2, true)) :
    run_approved_loop q =
      (Queue.push { q with approved := rest } mr2, true,
        [Event.startAttempt p.2]) := by
  rw [run_approved_loop.eq_def]
  split
  · rename_i heq
    rw [heq] at h
    simp at h
  · rename_i p' rest' heq
    rw [h] at heq
    have hpq : p = p' ∧ rest = rest' := by simpa using heq
    obtain ⟨hp1, hp2⟩ := hpq
    subst hp1
    subst hp2
    split
    · rename_i heq2
      rw [hp] at heq2
      simp at heq2
    · rename_i mr2b heq2
      rw [hp] at heq2
      have : mr2 = mr2b := by simpa using heq2
      subst this
      rfl
    · rename_i mr2b heq2
      rw [hp] at heq2
      simp at heq2

theorem run_approved_loop_step_conflict {q : Queue} {p : ApprovalInfo × MR}
    {rest : List (ApprovalInfo × MR)} {mr2 : MR}
    (h : popMax q.approved = some (p, rest))
    (hp : p.2.start_test = some (mr2, false)) :
    run_approved_loop q =
      ((run_approved_loop (Queue.push { q with approved := rest } mr2)).1,
       (run_approved_loop (Queue.push { q with approved := rest } mr2)).2.1,
       Event.startAttempt p.2 ::
         (run_approved_loop
           (Queue.push { q with approved := rest } mr2)).2.2) := by
  rw [run_approved_loop.eq_def]
  split
  · rename_i heq
    rw [heq] at h
    simp at h
  · rename_i p' rest' heq
    rw [h] at heq
    have hpq : p = p' ∧ rest = rest' := by simpa using heq
    obtain ⟨hp1, hp2⟩ := hpq
    subst hp1
    subst hp2
    split
    · rename_i heq2
      rw [hp] at heq2
      simp at heq2
    · rename_i mr2b heq2
      rw [hp] at heq2
      simp at heq2
    · rename_i mr2b heq2
      rw [hp] at heq2
      have : mr2 = mr2b := by simpa using heq2
      subst this
      rfl

/-- Behavior of the approved phase of a tick, mirroring `SuccessLoopSpec`:
start attempts are made on Approved candidates in heap order; only a
started test ends the phase, and at most one element enters
running/merged. -/
def ApprovedLoopSpec (q : Queue) (r : Queue × Bool × List Event) : Prop :=
  (r.2.1 = false → r.1.running = q.running ∧ r.1.merged = q.merged ∧
    r.1.approved = [] ∧ r.2.2.length = q.approved.length) ∧
  (r.2.1 = true → r.1.running.length + r.1.merged.length ≤
    q.running.length + q.merged.length + 1) ∧
  (∀ e ∈ r.2.2, ∃ p ∈ q.approved, e = Event.startAttempt p.2) ∧
  (r.2.1 = false →
    ∀ mr, Event.startAttempt mr ∈ r.2.2 → mr.startOutcome ≠ .started) ∧
  (∀ pre mr post, r.2.2 = pre ++ Event.startAttempt mr :: post →
    mr.startOutcome = .started → post = []) ∧
  (QueueWF q → QueueWF r.1)

theorem run_approved_loop_spec (q : Queue) :
    ApprovedLoopSpec q (run_approved_loop q) := by
  induction q using run_approved_loop.induct with
  | case1 q h =>
    rw [run_approved_loop_none h]
    have hnil : q.approved = [] := (popMax_eq_none_iff q.approved).mp h
    refine ⟨?_, ?_, ?_, ?_, ?_, ?_⟩
    · intro _
      exact ⟨rfl, rfl, hnil, by simp [hnil]⟩
    · intro hcontra
      simp at hcontra
    · intro e he
      simp at he
    · intro _ mr hmr
      simp at hmr
    · intro pre mr post hdec
      cases pre <;> simp at hdec
    · exact id
  | case2 q p rest h q1 hp ih =>
    have E := run_approved_loop_step_err h hp
    set q2 : Queue :=
      { q with errored := q.errored ++ [p.2], approved := rest } with hq2
    have E1 : (run_approved_loop q).1 = (run_approved_loop q2).1 := by rw [E]
    have E2 : (run_approved_loop q).2.1 = (run_approved_loop q2).2.1 := by
      rw [E]
    have E3 : (run_approved_loop q).2.2 =
        Event.startAttempt p.2 :: (run_approved_loop q2).2.2 := by rw [E]
    obtain ⟨ihf, iht, ihe, ihnp, ihstop, ihwf⟩ := ih
    have hq2run : q2.running = q.running := rfl
    have hq2mer : q2.merged = q.merged := rfl
    have hq2app : q2.approved = rest := rfl
    refine ⟨?_, ?_, ?_, ?_, ?_, ?_⟩
    · intro hfalse
      rw [E2] at hfalse
      obtain ⟨h1, h2, h3, h4⟩ := ihf hfalse
      rw [E1, E3]
      refine ⟨h1, h2, h3, ?_⟩
      simp only [List.length_cons, h4, hq2app]
      have := popMax_length h
      omega
    · intro htrue
      rw [E2] at htrue
      rw [E1]
      have := iht htrue
      rw [hq2run, hq2mer] at this
      omega
    · intro e he
      rw [E3] at he
      rcases List.mem_cons.mp he with he | he
      · exact ⟨p, popMax_mem h, he⟩
      · obtain ⟨p', hp', he'⟩ := ihe e he
        rw [hq2app] at hp'
        exact ⟨p', popMax_rest_subset h p' hp', he'⟩
    · intro hfalse mr hmr
      rw [E2] at hfalse
      rw [E3] at hmr
      rcases List.mem_cons.mp hmr with hmr | hmr
      · have hme : mr = p.2 := Event.startAttempt.inj hmr
        subst hme
        rw [start_test_err hp]
        simp
      · exact ihnp hfalse mr hmr
    · intro pre mr post hdec hpush
      rw [E3] at hdec
      cases pre with
      | nil =>
        simp at hdec
        obtain ⟨h1, h2⟩ := hdec
        subst h1
        rw [start_test_err hp] at hpush
        simp at hpush
      | cons e' pre' =>
        simp at hdec
        exact ihstop pre' mr post hdec.2 hpush
    · intro hwf
      rw [E1]
      exact ihwf
        (QueueWF_restrict_approved q _ rest hwf (popMax_rest_subset h))
  | case3 q p rest h mr2 hp =>
    have E := run_approved_loop_step_started h hp
    have E1 : (run_approved_loop q).1 =
        Queue.push { q with approved := rest } mr2 := by rw [E]
    have E2 : (run_approved_loop q).2.1 = true := by rw [E]
    have E3 : (run_approved_loop q).2.2 = [Event.startAttempt p.2] := by
      rw [E]
    refine ⟨?_, ?_, ?_, ?_, ?_, ?_⟩
    · intro hcontra
      rw [E2] at hcontra
      simp at hcontra
    · intro _
      rw [E1]
      have hb := Queue.push_running_merged_length { q with approved := rest }
        mr2
      have hbr : ({ q with approved := rest } : Queue).running = q.running :=
        rfl
      have hbm : ({ q with approved := rest } : Queue).merged = q.merged := rfl
      rw [hbr, hbm] at hb
      omega
    · intro e he
      rw [E3] at he
      rw [List.mem_singleton] at he
      exact ⟨p, popMax_mem h, he⟩
    · intro hcontra
      rw [E2] at hcontra
      simp at hcontra
    · intro pre mr post hdec hpush
      rw [E3] at hdec
      have hlen := congrArg List.length hdec
      simp [List.length_append] at hlen
      have : post.length = 0 := by omega
      exact List.length_eq_zero.mp this
    · intro hwf
      rw [E1]
      exact Queue.push_WF _ _
        (QueueWF_restrict_approved q q.errored rest hwf
          (popMax_rest_subset h))
        (start_test_some hp)
  | case4 q p rest h q1 mr2 hp ih =>
    have E := run_approved_loop_step_conflict h hp
    set q2 : Queue := Queue.push { q with approved := rest } mr2 with hq2
    have E1 : (run_approved_loop q).1 = (run_approved_loop q2).1 := by rw [E]
    have E2 : (run_approved_loop q).2.1 = (run_approved_loop q2).2.1 := by
      rw [E]
    have E3 : (run_approved_loop q).2.2 =
        Event.startAttempt p.2 :: (run_approved_loop q2).2.2 := by rw [E]
    obtain ⟨ihf, iht, ihe, ihnp, ihstop, ihwf⟩ := ih
    have hm2 : mr2 = MR.trans_state { p.2 with test_kind := .Failed none } :=
      start_test_false hp
    have hq2run : q2.running = q.running := by
      rw [hq2]
      exact (Queue.push_running_merged_of_ne _ _
        (fun a => hm2 ▸ trans_failed_not_running p.2 a)
        (fun a => hm2 ▸ trans_failed_not_merged p.2 a)).1
    have hq2mer : q2.merged = q.merged := by
      rw [hq2]
      exact (Queue.push_running_merged_of_ne _ _
        (fun a => hm2 ▸ trans_failed_not_running p.2 a)
        (fun a => hm2 ▸ trans_failed_not_merged p.2 a)).2
    have hq2app : q2.approved = rest := by
      rw [hq2]
      exact Queue.push_approved_of_ne _ _
        (fun a => hm2 ▸ trans_failed_not_approved p.2 a)
    refine ⟨?_, ?_, ?_, ?_, ?_, ?_⟩
    · intro hfalse
      rw [E2] at hfalse
      obtain ⟨h1, h2, h3, h4⟩ := ihf hfalse
      rw [E1, E3]
      refine ⟨by rw [h1, hq2run], by rw [h2, hq2mer], h3, ?_⟩
      simp only [List.length_cons, h4, hq2app]
      have := popMax_length h
      omega
    · intro htrue
      rw [E2] at htrue
      rw [E1]
      have := iht htrue
      rw [hq2run, hq2mer] at this
      omega
    · intro e he
      rw [E3] at he
      rcases List.mem_cons.mp he with he | he
      · exact ⟨p, popMax_mem h, he⟩
      · obtain ⟨p', hp', he'⟩ := ihe e he
        rw [hq2app] at hp'
        exact ⟨p', popMax_rest_subset h p' hp', he'⟩
    · intro hfalse mr hmr
      rw [E2] at hfalse
      rw [E3] at hmr
      rcases List.mem_cons.mp hmr with hmr | hmr
      · have hme : mr = p.2 := Event.startAttempt.inj hmr
        subst hme
        rw [start_test_false_outcome hp]
        simp
      · exact ihnp hfalse mr hmr
    · intro pre mr post hdec hpush
      rw [E3] at hdec
      cases pre with
      | nil =>
        simp at hdec
        obtain ⟨h1, h2⟩ := hdec
        subst h1
        rw [start_test_false_outcome hp] at hpush
        simp at hpush
      | cons e' pre' =>
        simp at hdec
        exact ihstop pre' mr post hdec.2 hpush
    · intro hwf
      rw [E1]
      refine ihwf ?_
      rw [hq2]
      exact Queue.push_WF _ _
        (QueueWF_restrict_approved q q.errored rest hwf
          (popMax_rest_subset h))
        (start_test_some hp)

theorem run_running_step_none_iff (q : Queue) :
    run_running_step q = none ↔ q.running = [] := by
  unfold run_running_step
  cases h : popMax q.running with
  | none => simpa using (popMax_eq_none_iff q.running).mp h
  | some p =>
    obtain ⟨m, rest⟩ := p
    simp
    intro habs
    rw [habs] at h
    have := (popMax_eq_none_iff (α := MR) []).mpr rfl
    rw [this] at h
    exact absurd h (by simp)

theorem run_running_step_some {q q2 : Queue} {e : Event}
    (h : run_running_step q = some (q2, e)) :
    ∃ p rest, popMax q.running = some (p, rest) ∧
      q2 = Queue.push { q with running := rest } p.2 ∧
      e = Event.runningBlock p.2 := by
  unfold run_running_step at h
  cases hp : popMax q.running with
  | none => rw [hp] at h; simp at h
  | some pr =>
    obtain ⟨p, rest⟩ := pr
    rw [hp] at h
    simp at h
    exact ⟨p, rest, rfl, h.1.symm, h.2.symm⟩

theorem run_running_step_count {q q2 : Queue} {e : Event}
    (h : run_running_step q = some (q2, e)) :
    q2.running.length + q2.merged.length ≤
      q.running.length + q.merged.length := by
  obtain ⟨p, rest, hpop, hq2, -⟩ := run_running_step_some h
  have hlen := popMax_length hpop
  have hb := Queue.push_running_merged_length { q with running := rest } p.2
  have hbr : ({ q with running := rest } : Queue).running = rest := rfl
  have hbm : ({ q with running := rest } : Queue).merged = q.merged := rfl
  rw [hbr, hbm] at hb
  rw [hq2]
  omega

theorem append_decomp_right {α : Type} {l1 l2 pre post : List α} {x : α}
    (h : l1 ++ l2 = pre ++ x :: post) (hx : x ∉ l1) :
    ∃ pre2, pre = l1 ++ pre2 ∧ l2 = pre2 ++ x :: post := by
  induction l1 generalizing pre with
  | nil => exact ⟨pre, rfl, h⟩
  | cons a as ih =>
    cases pre with
    | nil =>
      simp at h
      obtain ⟨hax, -⟩ := h
      exact absurd (hax ▸ List.mem_cons_self a as) hx
    | cons b pre' =>
      simp at h
      obtain ⟨hab, h2⟩ := h
      obtain ⟨pre2, hA, hB⟩ :=
        ih h2 (fun hmem => hx (List.mem_cons_of_mem _ hmem))
      refine ⟨pre2, ?_, hB⟩
      rw [hab, hA]
      rfl

/-- C4 (amended): on every scheduler tick for one target branch, at most one
element advances into the running or merged buckets (elements may also leave
the approved/success union to errored or failed on errors and conflicts);
every Success candidate is processed (push_merged attempted) before any
Approved candidate (start_test attempted); a Running candidate ends the tick
without any start_test attempt; if any start is attempted, every Success
candidate was attempted first; and the tick returns immediately after a
successful push or a started test. -/
theorem run_repo_target_discipline :
    ∀ (q : Queue),
      ((run_repo_target q).1.running.length +
          (run_repo_target q).1.merged.length ≤
        q.running.length + q.merged.length + 1) ∧
      (∃ ps bs ss,
        (run_repo_target q).2 = ps ++ bs ++ ss ∧
        (∀ e ∈ ps, ∃ p ∈ q.success, e = Event.pushAttempt p.2) ∧
        (∀ e ∈ bs, ∃ mr, e = Event.runningBlock mr) ∧
        (∀ e ∈ ss, ∃ mr, e = Event.startAttempt mr) ∧
        bs.length ≤ 1 ∧
        (bs ≠ [] → ss = []) ∧
        (ss ≠ [] → ps.length = q.success.length)) ∧
      (∀ pre mr post,
        (run_repo_target q).2 = pre ++ Event.pushAttempt mr :: post →
        mr.pushOutcome = .pushed → post = []) ∧
      (∀ pre mr post,
        (run_repo_target q).2 = pre ++ Event.startAttempt mr :: post →
        mr.startOutcome = .started → post = []) := by
  intro q
  obtain ⟨sf, st, se, snp, sstop, -⟩ := run_success_loop_spec q
  cases hE : (run_success_loop q).2.1 with
  | true =>
    have hrrt : run_repo_target q =
        ((run_success_loop q).1, (run_success_loop q).2.2) := by
      simp [run_repo_target, hE]
    rw [hrrt]
    dsimp only
    refine ⟨st hE, ⟨(run_success_loop q).2.2, [], [], by simp, se,
      by simp, by simp, by simp, by simp, by simp⟩, sstop, ?_⟩
    intro pre mr post hdec hstart
    have hmem : Event.startAttempt mr ∈ (run_success_loop q).2.2 := by
      rw [hdec]; simp
    obtain ⟨p, -, heq⟩ := se _ hmem
    simp at heq
  | false =>
    obtain ⟨s1, s2, s3, s4⟩ := sf hE
    cases hR : run_running_step (run_success_loop q).1 with
    | some pr =>
      obtain ⟨q2, e⟩ := pr
      obtain ⟨p, rest, hpop, hq2, heb⟩ := run_running_step_some hR
      have hrrt : run_repo_target q =
          (q2, (run_success_loop q).2.2 ++ [e]) := by
        simp [run_repo_target, hE, hR]
      rw [hrrt]
      dsimp only
      refine ⟨?_, ⟨(run_success_loop q).2.2, [e], [], by simp, se,
        ?_, by simp, by simp, by simp, by simp⟩, ?_, ?_⟩
      · have := run_running_step_count hR
        rw [s1, s2] at this
        omega
      · intro x hx
        rw [List.mem_singleton] at hx
        subst hx
        exact ⟨p.2, heb⟩
      · intro pre mr post hdec hpush
        have hmem : Event.pushAttempt mr ∈
            (run_success_loop q).2.2 ++ [e] := by
          rw [hdec]; simp
        rcases List.mem_append.mp hmem with hmem | hmem
        · exact absurd hpush (snp hE mr hmem)
        · rw [List.mem_singleton] at hmem
          rw [heb] at hmem
          simp at hmem
      · intro pre mr post hdec hstart
        have hmem : Event.startAttempt mr ∈
            (run_success_loop q).2.2 ++ [e] := by
          rw [hdec]; simp
        rcases List.mem_append.mp hmem with hmem | hmem
        · obtain ⟨p', -, heq⟩ := se _ hmem
          simp at heq
        · rw [List.mem_singleton] at hmem
          rw [heb] at hmem
          simp at hmem
    | none =>
      obtain ⟨af, at2, ae, anp, astop, -⟩ :=
        run_approved_loop_spec (run_success_loop q).1
      have hrrt : run_repo_target q =
          ((run_approved_loop (run_success_loop q).1).1,
            (run_success_loop q).2.2 ++
              (run_approved_loop (run_success_loop q).1).2.2) := by
        simp [run_repo_target, hE, hR]
      rw [hrrt]
      dsimp only
      have hpsnotstart : ∀ mr,
          Event.startAttempt mr ∉ (run_success_loop q).2.2 := by
        intro mr hmem
        obtain ⟨p', -, heq⟩ := se _ hmem
        simp at heq
      refine ⟨?_, ⟨(run_success_loop q).2.2, [],
        (run_approved_loop (run_success_loop q).1).2.2, by simp, se,
        by simp, ?_, by simp, by simp, fun _ => s4⟩, ?_, ?_⟩
      · cases hA : (run_approved_loop (run_success_loop q).1).2.1 with
        | true =>
          have := at2 hA
          rw [s1, s2] at this
          omega
        | false =>
          obtain ⟨a1, a2, -, -⟩ := af hA
          rw [a1, a2, s1, s2]
          omega
      · intro e he
        obtain ⟨p', -, heq⟩ := ae _ he
        exact ⟨p'.2, heq⟩
      · intro pre mr post hdec hpush
        have hmem : Event.pushAttempt mr ∈
            (run_success_loop q).2.2 ++
              (run_approved_loop (run_success_loop q).1).2.2 := by
          rw [hdec]; simp
        rcases List.mem_append.mp hmem with hmem | hmem
        · exact absurd hpush (snp hE mr hmem)
        · obtain ⟨p', -, heq⟩ := ae _ hmem
          simp at heq
      · intro pre mr post hdec hstart
        obtain ⟨pre2, -, hB⟩ := append_decomp_right hdec (hpsnotstart mr)
        exact astop pre2 mr post hB hstart

/-- Concrete merge request data for the scheduler counterexample. -/
def gmA : GitlabMR :=
  { id := 1, merge_status := .CanBeMerged, source_project_id := 2,
    source_branch := "f1", target_project_id := 1, target_branch := "master" }

/-- An approved, mergeable controller whose trial merge conflicts. -/
def mrConflictA : MR :=
  { gm := gmA, approval_kind := .Approved () approvalAlice,
    test_kind := .Pending, merged := false,
    state := .Approved approvalAlice, pushOutcome := .notPushed,
    startOutcome := .conflict, trialInfo := testInfo0 }

/-- A second approved, mergeable controller whose trial merge conflicts. -/
def mrConflictB : MR :=
  { gm := gmA, approval_kind := .Approved () approvalBob,
    test_kind := .Pending, merged := false,
    state := .Approved approvalBob, pushOutcome := .notPushed,
    startOutcome := .conflict, trialInfo := testInfo0 }

/-- A queue holding exactly the two conflicting approved requests. -/
def queueTwoConflicts : Queue :=
  { target_sha := "t", errored := [], init := [],
    approved := [(approvalAlice, mrConflictA), (approvalBob, mrConflictB)],
    running := [], success := [], merged := [], failed := [] }

/-- `mrConflictA` after its conflicting `start_test`. -/
def mrConflictA2 : MR :=
  MR.trans_state { mrConflictA with test_kind := .Failed none }

/-- `mrConflictB` after its conflicting `start_test`. -/
def mrConflictB2 : MR :=
  MR.trans_state { mrConflictB with test_kind := .Failed none }

/-- The queue after the first conflict lands in `failed`. -/
def qAfterA : Queue :=
  { target_sha := "t", errored := [], init := [],
    approved := [(approvalBob, mrConflictB)], running := [], success := [],
    merged := [], failed := [(some approvalAlice, mrConflictA2)] }

/-- The queue after both conflicts land in `failed`. -/
def qAfterB : Queue :=
  { target_sha := "t", errored := [], init := [], approved := [],
    running := [], success := [], merged := [],
    failed := [(some approvalAlice, mrConflictA2),
      (some approvalBob, mrConflictB2)] }

/-- C4 counterexample: a single tick on a queue with two approved candidates
whose trial merges both conflict moves BOTH elements out of the
approved ∪ success union (into `failed`), refuting "at most one element
transitions out of the union". -/
theorem run_repo_target_counterexample :
    queueTwoConflicts.approved.length + queueTwoConflicts.success.length =
      2 ∧
    (run_repo_target queueTwoConflicts).1.approved.length +
      (run_repo_target queueTwoConflicts).1.success.length = 0 ∧
    (run_repo_target queueTwoConflicts).1.failed.length = 2 := by
  have hS : run_success_loop queueTwoConflicts =
      (queueTwoConflicts, false, []) := run_success_loop_none rfl
  have hR : run_running_step queueTwoConflicts = none := rfl
  have hrrt : run_repo_target queueTwoConflicts =
      ((run_approved_loop queueTwoConflicts).1,
        (run_approved_loop queueTwoConflicts).2.2) := by
    simp [run_repo_target, hS, hR]
  have hpopA : popMax queueTwoConflicts.approved =
      some ((approvalAlice, mrConflictA), [(approvalBob, mrConflictB)]) := by
    decide
  have hstA : mrConflictA.start_test = some (mrConflictA2, false) := rfl
  have EA := run_approved_loop_step_conflict hpopA hstA
  have hqA : Queue.push
      { queueTwoConflicts with approved := [(approvalBob, mrConflictB)] }
      mrConflictA2 = qAfterA := by decide
  rw [hqA] at EA
  have hpopB : popMax qAfterA.approved =
      some ((approvalBob, mrConflictB), []) := by decide
  have hstB : mrConflictB.start_test = some (mrConflictB2, false) := rfl
  have EB := run_approved_loop_step_conflict hpopB hstB
  have hqB : Queue.push { qAfterA with approved := [] } mrConflictB2 =
      qAfterB := by decide
  rw [hqB] at EB
  have EC : run_approved_loop qAfterB = (qAfterB, false, []) :=
    run_approved_loop_none rfl
  have h1 : (run_approved_loop queueTwoConflicts).1 =
      (run_approved_loop qAfterA).1 := by rw [EA]
  have h2 : (run_approved_loop qAfterA).1 =
      (run_approved_loop qAfterB).1 := by rw [EB]
  have h3 : (run_approved_loop qAfterB).1 = qAfterB := by rw [EC]
  have hres : (run_repo_target queueTwoConflicts).1 = qAfterB := by
    rw [hrrt]
    dsimp only
    rw [h1, h2, h3]
  refine ⟨rfl, ?_, ?_⟩
  · rw [hres]
    rfl
  · rw [hres]
    rfl

/-- C4 witness: the amended tick-discipline theorem applied at a concrete
queue. -/
theorem run_repo_target_discipline_witness :
    (run_repo_target queueTwoConflicts).1.running.length +
      (run_repo_target queueTwoConflicts).1.merged.length ≤
      queueTwoConflicts.running.length + queueTwoConflicts.merged.length +
        1 :=
  (run_repo_target_discipline queueTwoConflicts).1

/-- A controller in the middle of a trial build (Running), used as concrete
input: its TestInfo records target_sha "0a1". -/
def mrRunning : MR :=
  { gm := gmA, approval_kind := .Approved () approvalAlice,
    test_kind := .Running () testInfo0, merged := false,
    state := .Running approvalAlice, pushOutcome := .notPushed,
    startOutcome := .started, trialInfo := testInfo0 }

/-- C9 counterexample: with the queue tip "tip2" different from the recorded
target_sha "0a1", `update_target_branch` resets the TestKind to Pending and
recomputes the composite state to Approved, but performs NO remote
commit-status write -- while the claim says it "re-syncs the remote status"
(and a sync, per `sync_writes`, always writes at least the new record). -/
theorem update_target_branch_no_sync_counterexample :
    (MR.update_target_branch mrRunning "tip2").1.test_kind =
      TestKind.Pending ∧
    (MR.update_target_branch mrRunning "tip2").1.state =
      MRState.Approved approvalAlice ∧
    (MR.update_target_branch mrRunning "tip2").2 = [] ∧
    sync_writes (some StatusState.Running) StatusState.Pending ≠ [] := by
  refine ⟨by decide, by decide, by decide, by decide⟩

/-- C9 (amended): whenever the test track carries a TestInfo whose
target_sha differs from the queue's current target tip,
`update_target_branch` resets the TestKind to Pending and recomputes the
composite state via `trans_state` (performing no remote status write within
the call), after which the composite state is Approved given an approving
review and a mergeable request; when the track carries no TestInfo or the
target_sha matches, the controller is left unchanged, no write is performed,
and the call returns Ok (it is total). -/
theorem update_target_branch_behavior :
    ∀ (mr : MR) (tip : String),
      (mr.test_kind.info = none → mr.update_target_branch tip = (mr, [])) ∧
      (∀ info, mr.test_kind.info = some info → info.target_sha = tip →
        mr.update_target_branch tip = (mr, [])) ∧
      (∀ info, mr.test_kind.info = some info → info.target_sha ≠ tip →
        (mr.update_target_branch tip).1 =
          MR.trans_state { mr with test_kind := .Pending } ∧
        (mr.update_target_branch tip).1.test_kind = TestKind.Pending ∧
        (mr.update_target_branch tip).2 = [] ∧
        (∀ d a, mr.approval_kind = .Approved d a →
          mr.gm.merge_status ≠ .CannotBeMerged →
          (mr.update_target_branch tip).1.state = .Approved a)) := by
  intro mr tip
  refine ⟨?_, ?_, ?_⟩
  · intro h
    simp [MR.update_target_branch, h]
  · intro info h1 h2
    simp [MR.update_target_branch, h1, h2]
  · intro info h1 h2
    have hstep : mr.update_target_branch tip =
        (MR.trans_state { mr with test_kind := .Pending }, []) := by
      simp [MR.update_target_branch, h1, h2]
    refine ⟨by rw [hstep], by rw [hstep]; rfl, by rw [hstep], ?_⟩
    intro d a ha hms
    rw [hstep]
    dsimp only
    cases hcase : mr.gm.merge_status <;>
      simp [MR.trans_state, MR.nextState, next_state, ha, hcase,
        ApprovalKind.info]
    exact absurd hcase hms

/-- C9 witness: the amended theorem applied at the concrete Running
controller and a moved tip, hypotheses discharged by evaluation. -/
theorem update_target_branch_behavior_witness :
    (MR.update_target_branch mrRunning "tip2").1.test_kind =
      TestKind.Pending ∧
    (MR.update_target_branch mrRunning "tip2").1.state =
      MRState.Approved approvalAlice :=
  ⟨((update_target_branch_behavior mrRunning "tip2").2.2 testInfo0 rfl
      (by decide)).2.1,
   ((update_target_branch_behavior mrRunning "tip2").2.2 testInfo0 rfl
      (by decide)).2.2.2 () approvalAlice rfl (by decide)⟩

theorem update_approval_status_StateInv {mr r : MR}
    {f : Option (ApprovalKind Unit)} (h : mr.update_approval_status f = some r)
    (hinv : StateInv mr) : StateInv r := by
  unfold MR.update_approval_status at h
  cases f with
  | none => simp at h
  | some next =>
    simp only at h
    split at h
    · simp at h
      rw [← h]
      exact trans_state_StateInv _
    · simp at h
      rw [← h]
      exact hinv

theorem update_test_status_StateInv {mr r : MR}
    {f : Option (List StatusState)} (h : mr.update_test_status f = some r)
    (hinv : StateInv mr) : StateInv r := by
  unfold MR.update_test_status at h
  cases hi : mr.test_kind.info with
  | none =>
    rw [hi] at h
    simp at h
    rw [← h]
    exact hinv
  | some info =>
    rw [hi] at h
    cases f with
    | none => simp at h
    | some builds =>
      simp only at h
      split at h
      · simp at h
        rw [← h]
        exact trans_state_StateInv _
      · split at h
        · simp at h
          rw [← h]
          exact trans_state_StateInv _
        · simp at h
          rw [← h]
          exact hinv

theorem load_refresh_StateInv (obj : MR) (hinv : StateInv obj)
    (ck : Option (ApprovalKind Unit)) (bl : Option (List StatusState))
    (s : Bool) :
    (load_refresh obj ck bl s).state = .Errored ∨
      StateInv (load_refresh obj ck bl s) := by
  unfold load_refresh
  cases heq2 : obj.update_approval_status ck with
  | none => left; rfl
  | some obj2 =>
    dsimp only
    cases heq3 : obj2.update_test_status bl with
    | none => left; rfl
    | some obj3 =>
      dsimp only
      cases s with
      | true =>
        right
        simp only [if_true]
        exact update_test_status_StateInv heq3
          (update_approval_status_StateInv heq2 hinv)
      | false => left; rfl

theorem from_gitlab_mr_StateInv (gm : GitlabMR) (inp : LoadInputs)
    (po : PushOutcome) (so : StartOutcome) (ti : TestInfo) :
    (from_gitlab_mr gm inp po so ti).state = .Errored ∨
      StateInv (from_gitlab_mr gm inp po so ti) := by
  cases hok : inp.pipelineOk with
  | false =>
    left
    simp [from_gitlab_mr, hok]
  | true =>
    simp only [from_gitlab_mr, hok]
    simp only [show (true = false) = False by simp, if_false]
    exact load_refresh_StateInv _ (trans_state_StateInv _) _ _ _

theorem update_target_branch_StateInv (mr : MR) (tip : String)
    (hinv : StateInv mr) : StateInv (mr.update_target_branch tip).1 := by
  unfold MR.update_target_branch
  cases hi : mr.test_kind.info with
  | none => exact hinv
  | some info =>
    dsimp only
    by_cases hne : info.target_sha ≠ tip
    · rw [if_pos hne]
      exact trans_state_StateInv _
    · rw [if_neg hne]
      exact hinv

theorem Queue.push_WF_or (q : Queue) (mr : MR) (hq : QueueWF q)
    (hmr : StateInv mr ∨ mr.state = .Errored) : QueueWF (q.push mr) := by
  rcases hmr with hmr | hmr
  · exact Queue.push_WF q mr hq hmr
  · obtain ⟨ha, hr, hs⟩ := hq
    simp only [Queue.push, hmr]
    exact ⟨ha, hr, hs⟩

theorem StateInv_success_shape {mr : MR} {a : ApprovalInfo}
    (hinv : StateInv mr) (hs : mr.state = .Success a) :
    (∃ d i, mr.test_kind = .Success d i) ∧ mr.merged = false := by
  rw [hinv] at hs
  obtain ⟨⟨d, i, htk⟩, -, hm, -⟩ := next_state_eq_success hs
  exact ⟨⟨d, i, htk⟩, hm⟩

theorem StateInv_approved_shape {mr : MR} {a : ApprovalInfo}
    (hinv : StateInv mr) (hs : mr.state = .Approved a) :
    mr.test_kind = .Pending := by
  rw [hinv] at hs
  exact (next_state_eq_approved hs).1

/-- On a well-formed queue, every `push_merged` attempt of a tick is made on
a controller with state Success and TestKind Success (and merged flag still
clear), and every `start_test` attempt on a controller with state Approved
and TestKind Pending: the entry assertions of the two operations hold. -/
theorem run_repo_target_asserts (q : Queue) (hwf : QueueWF q) :
    (∀ mr, Event.pushAttempt mr ∈ (run_repo_target q).2 →
      (∃ a, mr.state = .Success a) ∧
      (∃ d i, mr.test_kind = .Success d i) ∧ mr.merged = false) ∧
    (∀ mr, Event.startAttempt mr ∈ (run_repo_target q).2 →
      (∃ a, mr.state = .Approved a) ∧ mr.test_kind = .Pending) := by
  obtain ⟨sf, st, se, snp, sstop, swf⟩ := run_success_loop_spec q
  have hpush : ∀ mr, Event.pushAttempt mr ∈ (run_success_loop q).2.2 →
      (∃ a, mr.state = .Success a) ∧
      (∃ d i, mr.test_kind = .Success d i) ∧ mr.merged = false := by
    intro mr hm
    obtain ⟨p, hpmem, heq⟩ := se _ hm
    have hme : mr = p.2 := Event.pushAttempt.inj heq
    subst hme
    obtain ⟨hinv, hst⟩ := hwf.2.2 p hpmem
    exact ⟨⟨p.1, hst⟩, StateInv_success_shape hinv hst⟩
  cases hE : (run_success_loop q).2.1 with
  | true =>
    have hrrt : run_repo_target q =
        ((run_success_loop q).1, (run_success_loop q).2.2) := by
      simp [run_repo_target, hE]
    rw [hrrt]
    dsimp only
    refine ⟨hpush, ?_⟩
    intro mr hm
    obtain ⟨p, -, heq⟩ := se _ hm
    simp at heq
  | false =>
    cases hR : run_running_step (run_success_loop q).1 with
    | some pr =>
      obtain ⟨q2, e⟩ := pr
      obtain ⟨p, rest, hpop, hq2, heb⟩ := run_running_step_some hR
      have hrrt : run_repo_target q =
          (q2, (run_success_loop q).2.2 ++ [e]) := by
        simp [run_repo_target, hE, hR]
      rw [hrrt]
      dsimp only
      constructor
      · intro mr hm
        rcases List.mem_append.mp hm with hm | hm
        · exact hpush mr hm
        · rw [List.mem_singleton] at hm
          rw [heb] at hm
          simp at hm
      · intro mr hm
        rcases List.mem_append.mp hm with hm | hm
        · obtain ⟨p', -, heq⟩ := se _ hm
          simp at heq
        · rw [List.mem_singleton] at hm
          rw [heb] at hm
          simp at hm
    | none =>
      obtain ⟨af, at2, ae, anp, astop, awf⟩ :=
        run_approved_loop_spec (run_success_loop q).1
      have hwf1 : QueueWF (run_success_loop q).1 := swf hwf
      have hrrt : run_repo_target q =
          ((run_approved_loop (run_success_loop q).1).1,
            (run_success_loop q).2.2 ++
              (run_approved_loop (run_success_loop q).1).2.2) := by
        simp [run_repo_target, hE, hR]
      rw [hrrt]
      dsimp only
      constructor
      · intro mr hm
        rcases List.mem_append.mp hm with hm | hm
        · exact hpush mr hm
        · obtain ⟨p', -, heq⟩ := ae _ hm
          simp at heq
      · intro mr hm
        rcases List.mem_append.mp hm with hm | hm
        · obtain ⟨p', -, heq⟩ := se _ hm
          simp at heq
        · obtain ⟨p', hpmem, heq⟩ := ae _ hm
          have hme : mr = p'.2 := Event.startAttempt.inj heq
          subst hme
          obtain ⟨hinv, hst⟩ := hwf1.1 p' hpmem
          exact ⟨⟨p'.1, hst⟩, StateInv_approved_shape hinv hst⟩

instance (mr : MR) : Decidable (StateInv mr) := by
  unfold StateInv; infer_instance

instance (q : Queue) : Decidable (QueueWF q) := by
  unfold QueueWF; infer_instance

/-- C10: after controller construction (except when forced to Errored) and
after every mutating operation (update_target_branch, and the successful
returns of start_test and push_merged, each of which ends in trans_state),
the stored composite state equals `next_state()` recomputed from the current
fields; a state-invariant controller with state Approved has TestKind
Pending, and with state Success has TestKind Success and a clear merged
flag; `Queue::push` preserves queue well-formedness; and consequently, on a
well-formed queue, every controller popped from the success bucket enters
`push_merged` with state Success and TestKind Success and every controller
popped from the approved bucket enters `start_test` with state Approved and
TestKind Pending -- the entry assertions of the two operations never
fire. -/
theorem controller_state_invariant :
    (∀ (gm : GitlabMR) (inp : LoadInputs) (po : PushOutcome)
      (so : StartOutcome) (ti : TestInfo),
      (from_gitlab_mr gm inp po so ti).state = .Errored ∨
        StateInv (from_gitlab_mr gm inp po so ti)) ∧
    (∀ (mr : MR) (tip : String), StateInv mr →
      StateInv (mr.update_target_branch tip).1) ∧
    (∀ (mr r : MR) (b : Bool), mr.push_merged = some (r, b) → StateInv r) ∧
    (∀ (mr r : MR) (b : Bool), mr.start_test = some (r, b) → StateInv r) ∧
    (∀ (mr : MR) (a : ApprovalInfo), StateInv mr →
      mr.state = .Approved a → mr.test_kind = .Pending) ∧
    (∀ (mr : MR) (a : ApprovalInfo), StateInv mr → mr.state = .Success a →
      (∃ d i, mr.test_kind = .Success d i) ∧ mr.merged = false) ∧
    (∀ (q : Queue) (mr : MR), QueueWF q →
      (StateInv mr ∨ mr.state = .Errored) → QueueWF (q.push mr)) ∧
    (∀ (q : Queue), QueueWF q →
      (∀ mr, Event.pushAttempt mr ∈ (run_repo_target q).2 →
        (∃ a, mr.state = .Success a) ∧
        (∃ d i, mr.test_kind = .Success d i) ∧ mr.merged = false) ∧
      (∀ mr, Event.startAttempt mr ∈ (run_repo_target q).2 →
        (∃ a, mr.state = .Approved a) ∧ mr.test_kind = .Pending)) :=
  ⟨from_gitlab_mr_StateInv,
   fun mr tip h => update_target_branch_StateInv mr tip h,
   fun _ _ _ h => push_merged_some h,
   fun _ _ _ h => start_test_some h,
   fun _ _ h hs => StateInv_approved_shape h hs,
   fun _ _ h hs => StateInv_success_shape h hs,
   Queue.push_WF_or,
   run_repo_target_asserts⟩

/-- C10 witness: the invariant theorem applied at a concrete well-formed
queue (whose well-formedness is checked by evaluation) and at a concrete
state-invariant controller. -/
theorem controller_state_invariant_witness :
    ((∀ mr, Event.pushAttempt mr ∈ (run_repo_target queueTwoConflicts).2 →
        (∃ a, mr.state = .Success a) ∧
        (∃ d i, mr.test_kind = .Success d i) ∧ mr.merged = false) ∧
      (∀ mr, Event.startAttempt mr ∈ (run_repo_target queueTwoConflicts).2 →
        (∃ a, mr.state = .Approved a) ∧ mr.test_kind = .Pending)) ∧
    StateInv (MR.update_target_branch mrRunning "tip2").1 :=
  ⟨controller_state_invariant.2.2.2.2.2.2.2 queueTwoConflicts (by decide),
   controller_state_invariant.2.1 mrRunning "tip2" (by decide)⟩
